import Mathlib

/-!
Verification of the embedding-index management layer of the `ares` repository
(`src/ares/databases/embedding_database.py`), shallowly embedded in Lean 4.

Modelling conventions:
* Python/NumPy floating-point scalars are modelled as exact rationals (`ℚ`).
  Claims phrased "within floating-point tolerance" are settled exactly; a
  discrepancy exhibited here is a real algebraic discrepancy, not rounding.
* A NumPy 1-D array of fixed length `d` is modelled either as `Fin d → ℚ`
  (for the `NormalizationTracker`, whose operations are all pointwise) or as
  `List ℚ` (for index vectors, whose lengths vary with the index).
* Exceptions are modelled explicitly: an operation that can raise returns the
  post-raise state together with `Option String` (the raised message), or an
  `Option` result for read-only operations.
* `faiss.IndexFlatL2` wrapped in `IndexIDMap2` (an external library) is
  modelled from its documented behaviour: exact k-nearest-neighbour search by
  squared Euclidean distance over all stored `(internal_id, vector)` pairs,
  returning arrays of length `k` padded with id `-1` and distance `FLT_MAX`
  when fewer than `k` entries exist.  Ties in distance keep the earlier
  stored vector (faiss replaces a heap entry only on strictly smaller
  distance); the model uses a stable sort, which has the same property.
-/

namespace Ares

/-! ## Basic helpers -/

/-- Squared Euclidean distance between two vectors, `sum((u-v)**2)`.
For vectors of equal length this is the distance computed by
`faiss.IndexFlatL2`. -/
def sqDist (u v : List ℚ) : ℚ :=
  (List.zipWith (fun a b => (a - b) ^ 2) u v).sum

/-- Dot product of two vectors. -/
def dot (u v : List ℚ) : ℚ :=
  (List.zipWith (· * ·) u v).sum

/-- Integer square root computed by counting, used only to decide whether a
rational has an exact rational square root.  Agrees with the mathematical
floor of the square root. -/
def isqrtN (n : ℕ) : ℕ :=
  ((List.range (n + 1)).filter (fun r => r * r ≤ n)).length - 1

/-- Exact rational square root, when it exists.  The Python code computes
floating-point square roots (`np.sqrt`, `np.linalg.norm`); the exact model
is defined (`some`) precisely on inputs whose square root is rational, and
every theorem about code paths that take square roots is stated at such
inputs. -/
def ratSqrt (x : ℚ) : Option ℚ :=
  if 0 ≤ x ∧ isqrtN x.num.natAbs * isqrtN x.num.natAbs = x.num.natAbs
      ∧ isqrtN x.den * isqrtN x.den = x.den then
    some ((isqrtN x.num.natAbs : ℚ) / (isqrtN x.den : ℚ))
  else none

/-- Python `dict` assignment `d[k] = v`: overwrite in place if the key is
present (insertion order preserved), else append. -/
def dictSet {α : Type} (l : List (String × α)) (k : String) (v : α) :
    List (String × α) :=
  if (l.lookup k).isSome then
    l.map (fun p => if p.1 = k then (k, v) else p)
  else l ++ [(k, v)]

/-- Python `del d[k]`. -/
def dictErase {α : Type} (l : List (String × α)) (k : String) :
    List (String × α) :=
  l.filter (fun p => p.1 ≠ k)

/-- Sequential evaluation of a fallible map (a Python list comprehension
whose body may raise): `none` as soon as one element fails. -/
def mapOpt {α β : Type} (f : α → Option β) : List α → Option (List β)
  | [] => some []
  | a :: t =>
    match f a, mapOpt f t with
    | some b, some bs => some (b :: bs)
    | _, _ => none

/-- `np.linspace(0, 1, n)`: `n` evenly spaced values over `[0, 1]`. -/
def linspace : ℕ → List ℚ
  | 0 => []
  | 1 => [0]
  | n => (List.range n).map (fun i : ℕ => (i : ℚ) / ((n : ℚ) - 1))

/-- Row-major reshape of a flat list into rows of length `d`
(NumPy `v.reshape(-1, d)` for a flat vector whose length is a multiple of
`d`; callers in the code guarantee exact divisibility). -/
def unflatten {α : Type} (d : ℕ) : List α → List (List α)
  | [] => []
  | a :: l =>
    if d = 0 then []
    else (a :: l).take d :: unflatten d ((a :: l).drop d)
  termination_by l => l.length
  decreasing_by simp; omega

/-! ## NormalizationTracker (`embedding_database.py` lines 38-98)

The tracker's arrays all have fixed length `feature_dim`; they are modelled
as functions `Fin feature_dim → ℚ` and a matrix passed to `update_online`
as a list of rows.  One intentional deviation, justified where used: the
Python `get_current_stats`/`compute_batch_stats` return the standard
deviation `sqrt(variance)` with zero entries then replaced by `1`; the model
returns the *variance* with zero entries replaced by `1`.  Since
`sqrt` is injective on nonnegatives, `std = sqrt(var)`, and the guards
correspond (`std = 0 ↔ var = 0`, and the substituted value `1 = sqrt 1`),
two stats results are equal iff their variance forms are equal. -/

structure NormalizationTracker (d : ℕ) where
  count : ℕ
  mean : Fin d → ℚ
  M2 : Fin d → ℚ

namespace NormalizationTracker

/-- `NormalizationTracker(feature_dim)` with no initial statistics. -/
def init (d : ℕ) : NormalizationTracker d :=
  { count := 0, mean := fun _ => 0, M2 := fun _ => 0 }

/-- One iteration of the `for x in matrix` loop in `update_online`
(Welford's algorithm, with the mean updated before `delta2` is taken). -/
def updateRow {d : ℕ} (tr : NormalizationTracker d) (x : Fin d → ℚ) :
    NormalizationTracker d :=
  let count := tr.count + 1
  let delta : Fin d → ℚ := fun j => x j - tr.mean j
  let mean : Fin d → ℚ := fun j => tr.mean j + delta j / (count : ℚ)
  let delta2 : Fin d → ℚ := fun j => x j - mean j
  { count := count, mean := mean, M2 := fun j => tr.M2 j + delta j * delta2 j }

/-- `update_online(matrix)`: the matrix is reshaped to rows of
`feature_dim` entries and Welford's update is run on each row in order. -/
def update_online {d : ℕ} (tr : NormalizationTracker d)
    (matrix : List (Fin d → ℚ)) : NormalizationTracker d :=
  matrix.foldl updateRow tr

/-- `get_current_stats`, in variance form (see section comment): for
`count < 2` returns `(mean, ones)`; otherwise variance `M2 / (count - 1)`
with zero entries replaced by `1`. -/
def get_current_stats {d : ℕ} (tr : NormalizationTracker d) :
    (Fin d → ℚ) × (Fin d → ℚ) :=
  if tr.count < 2 then (tr.mean, fun _ => 1)
  else
    (tr.mean, fun j =>
      let v := tr.M2 j / ((tr.count : ℚ) - 1)
      if v = 0 then 1 else v)

/-- Column mean used by `compute_batch_stats` (`np.mean(all_data, axis=0)`),
over the vertically stacked rows of all matrices in the batch. -/
def batchMean {d : ℕ} (rows : List (Fin d → ℚ)) : Fin d → ℚ :=
  fun j => (rows.map (fun r => r j)).sum / (rows.length : ℚ)

/-- Column population variance used by `compute_batch_stats`
(`np.std(all_data, axis=0)` is the population standard deviation, i.e. the
square root of this; `ddof = 0`). -/
def batchVar {d : ℕ} (rows : List (Fin d → ℚ)) : Fin d → ℚ :=
  fun j =>
    (rows.map (fun r => (r j - batchMean rows j) ^ 2)).sum / (rows.length : ℚ)

/-- `compute_batch_stats(matrices)`, in variance form (see section comment):
the matrices are stacked into one list of rows; returns the column means and
the column population variances with zero entries replaced by `1`. -/
def compute_batch_stats {d : ℕ} (matrices : List (List (Fin d → ℚ))) :
    (Fin d → ℚ) × (Fin d → ℚ) :=
  let rows := matrices.flatten
  (batchMean rows, fun j =>
    if batchVar rows j = 0 then 1 else batchVar rows j)

/-- Column sum of the rows seen so far (used to state Welford correctness). -/
def S1 {d : ℕ} (rows : List (Fin d → ℚ)) (j : Fin d) : ℚ :=
  (rows.map (fun r => r j)).sum

/-- Column sum of squares of the rows seen so far. -/
def S2 {d : ℕ} (rows : List (Fin d → ℚ)) (j : Fin d) : ℚ :=
  (rows.map (fun r => (r j) ^ 2)).sum

/-- Loop invariant of Welford's algorithm: after processing the rows `ps`,
the count is `|ps|`, the mean is the column average and `M2` is the column
sum of squared deviations `S2 - S1^2 / n` (both stated multiplicatively so
that the empty case needs no division). -/
def WelfordInv {d : ℕ} (tr : NormalizationTracker d)
    (ps : List (Fin d → ℚ)) : Prop :=
  tr.count = ps.length ∧
  ∀ j, (ps.length : ℚ) * tr.mean j = S1 ps j ∧
       tr.M2 j = S2 ps j - (S1 ps j) ^ 2 / (ps.length : ℚ)

end NormalizationTracker

/-! ## FaissIndex (`embedding_database.py` lines 101-341)

Stored vectors are `List ℚ`.  The wrapped `faiss.IndexIDMap2(IndexFlatL2)`
is modelled as the list of `(internal_id, vector)` pairs in insertion
order; `ntotal` is its length.  `id_map` is the Python `dict[int, str]` as
an association list (`dict` assignment only ever adds the fresh key
`next_id`, so appending is faithful for every state built by the
operations).  The manager is always constructed with the default
`online_norm=False` (as in `__main__`), so the per-index online tracker is
never engaged; `NormalizationTracker` is modelled separately above. -/

structure FaissIndex where
  feature_dim : ℕ
  time_steps : ℕ
  total_dim : ℕ
  n_entries : ℕ
  norm_means : Option (List ℚ)
  norm_stds : Option (List ℚ)
  entries : List (ℕ × List ℚ)
  id_map : List (ℕ × String)
  next_id : ℕ
  last_save_path : Option String

/-- The JSON sidecar written by `FaissIndex.save` together with the binary
faiss file (the two are created and deleted together; the model keeps them
as one record keyed by the index name). -/
structure SavedIndex where
  entries : List (ℕ × List ℚ)
  feature_dim : ℕ
  time_steps : ℕ
  n_entries : ℕ
  id_map : List (ℕ × String)
  next_id : ℕ
  norm_means : Option (List ℚ)
  norm_stds : Option (List ℚ)

namespace FaissIndex

/-- `FaissIndex(feature_dim, time_steps)` (constructor, `online_norm`
defaulted to `False`). -/
def mk0 (feature_dim time_steps : ℕ) : FaissIndex :=
  { feature_dim := feature_dim, time_steps := time_steps,
    total_dim := feature_dim * time_steps, n_entries := 0,
    norm_means := none, norm_stds := none, entries := [], id_map := [],
    next_id := 0, last_save_path := none }

/-- `add_vector(vector, entry_id)`: register the fresh internal id in
`id_map`, add the vector under it, bump `next_id` and `n_entries`. -/
def add_vector (idx : FaissIndex) (v : List ℚ) (eid : String) : FaissIndex :=
  { idx with id_map := idx.id_map ++ [(idx.next_id, eid)],
             entries := idx.entries ++ [(idx.next_id, v)],
             next_id := idx.next_id + 1,
             n_entries := idx.n_entries + 1 }

/-- `set_normalization(means, stds)`: rejects constants whose length is not
`feature_dim`. -/
def set_normalization (idx : FaissIndex) (means stds : List ℚ) :
    FaissIndex × Option String :=
  if means.length ≠ idx.feature_dim ∨ stds.length ≠ idx.feature_dim then
    (idx, some "Normalization constants must have shape (feature_dim,)")
  else
    ({ idx with norm_means := some means, norm_stds := some stds }, none)

end FaissIndex

/-- One row of `(matrix - means) / stds` (NumPy broadcasting across the
time-step axis; broadcasting requires the row length to equal
`feature_dim`, which the theorems assume). -/
def rowNormalize (mu sd row : List ℚ) : List ℚ :=
  List.zipWith (· / ·) (List.zipWith (· - ·) row mu) sd

/-- One row of `(matrix * stds) + means`. -/
def rowDenormalize (mu sd row : List ℚ) : List ℚ :=
  List.zipWith (· + ·) (List.zipWith (· * ·) row sd) mu

namespace FaissIndex

/-- `normalize_matrix(matrix)`: channel-wise normalization if constants are
set, identity otherwise. -/
def normalize_matrix (idx : FaissIndex) (M : List (List ℚ)) :
    List (List ℚ) :=
  match idx.norm_means, idx.norm_stds with
  | some mu, some sd => M.map (rowNormalize mu sd)
  | _, _ => M

/-- `denormalize_matrix(matrix)`: the reverse transform, identity when no
constants are set. -/
def denormalize_matrix (idx : FaissIndex) (M : List (List ℚ)) :
    List (List ℚ) :=
  match idx.norm_means, idx.norm_stds with
  | some mu, some sd => M.map (rowDenormalize mu sd)
  | _, _ => M

end FaissIndex

/-- The distance value faiss reports for missing result slots
(`FLT_MAX`, exactly `(2^24 - 1) * 2^104`). -/
def fltMax : ℚ := (2 ^ 24 - 1) * 2 ^ 104

/-- Comparison of scored candidates by distance (first component). -/
def distLE (a b : ℚ × Int) : Prop := a.1 ≤ b.1

instance : DecidableRel distLE :=
  fun a b => inferInstanceAs (Decidable (a.1 ≤ b.1))

instance : IsTotal (ℚ × Int) distLE := ⟨fun a b => le_total a.1 b.1⟩

instance : IsTrans (ℚ × Int) distLE := ⟨fun _ _ _ => le_trans⟩

/-- `faiss.IndexIDMap2(IndexFlatL2).search(q, k)`, modelled from the faiss
documentation: score every stored vector by squared Euclidean distance to
the query, return the `k` smallest as parallel arrays of distances and
internal ids, padding with `FLT_MAX` / `-1` when fewer than `k` vectors are
stored.  The sort is stable, matching faiss's heap (an entry is replaced
only on strictly smaller distance, so the earliest stored vector wins
ties). -/
def faissSearch (entries : List (ℕ × List ℚ)) (q : List ℚ) (k : ℕ) :
    List ℚ × List Int :=
  let scored := entries.map (fun e => (sqDist q e.2, (e.1 : Int)))
  let sorted := List.insertionSort distLE scored
  let top := sorted.take k
  (top.map (fun p => p.1) ++ List.replicate (k - top.length) fltMax,
   top.map (fun p => p.2) ++ List.replicate (k - top.length) (-1))

namespace FaissIndex

/-- `get_all_vectors()`: `np.vstack([reconstruct(i) for i in range(ntotal)])`.
Raises (`none`) on an empty index (`np.vstack` of an empty list) or when an
internal id in `range(ntotal)` is absent. -/
def get_all_vectors (idx : FaissIndex) : Option (List (List ℚ)) :=
  if idx.entries.length = 0 then none
  else mapOpt (fun i => idx.entries.lookup i) (List.range idx.entries.length)

/-- `np.argsort` (ascending).  NumPy's default quicksort is not stable; the
model uses a stable sort and every theorem touching `argsort` uses inputs
with pairwise-distinct keys. -/
def argsortAsc (xs : List ℚ) : List ℕ :=
  (List.insertionSort (fun a b : ℕ × ℚ => a.2 ≤ b.2) xs.enum).map
    (fun p => p.1)

/-- `brute_force_search(query_vector, k)` (lines 311-341): NaN-replacement
is the identity in the exact model (no NaNs exist); vectors and the query
are L2-normalized (`none` when a norm is irrational — see `ratSqrt` — or
via `get_all_vectors` on an empty index, where the Python code raises);
cosine similarities are taken against every stored vector; the slice
`np.argsort(sims)[-k:][::-1]` keeps the top `min k ntotal` indices in
descending similarity (for `k = 0` the Python slice `[-0:]` is the whole
array).  Note the ids: the code takes `id_map[i] for i in
range(len(top_indices))`, i.e. by *position*, not via `top_indices`. -/
def brute_force_search (idx : FaissIndex) (q : List ℚ) (k : ℕ) :
    Option (List ℚ × List String × List (List ℚ)) := do
  let all_vectors ← idx.get_all_vectors
  let norms ← mapOpt (fun v => ratSqrt (dot v v)) all_vectors
  let normed := List.zipWith (fun v n => v.map (fun a => a / n))
    all_vectors norms
  let qn ← ratSqrt (dot q q)
  let qv := q.map (fun a => a / qn)
  let sims := normed.map (fun v => dot v qv)
  let k2 := min k sims.length
  let order := argsortAsc sims
  let top_indices := if k2 = 0 then order.reverse
                     else (order.drop (order.length - k2)).reverse
  let distances := top_indices.map (fun i => 1 - sims.getD i 0)
  let string_ids ← mapOpt (fun i => idx.id_map.lookup i)
    (List.range top_indices.length)
  let vectors := top_indices.map (fun i => all_vectors.getD i [])
  return (distances, string_ids, vectors)

/-- `search(query_vector, k)` (lines 216-235).  The first component models
`distances[0]`, the single row of the `(1, k)` distance array faiss
returns.  `none` models an uncaught exception (a `KeyError` on `id_map`,
or the crash inside `brute_force_search` on an empty index). -/
def search (idx : FaissIndex) (q : List ℚ) (k : ℕ) :
    Option (List ℚ × List String × List (List ℚ)) :=
  let r := faissSearch idx.entries q k
  let valid := r.2.filter (fun i => i ≠ -1)
  match mapOpt (fun i => idx.id_map.lookup i.toNat) valid with
  | none => none
  | some string_ids =>
    if string_ids.length = 0 then
      if idx.entries.length ≤ 100 then brute_force_search idx q k
      else some ([], [], [])
    else
      match mapOpt (fun i => idx.entries.lookup i.toNat) valid with
      | none => none
      | some vectors => some (r.1, string_ids, vectors)

/-- `save(path)`: records `last_save_path`, writes the faiss file and the
sidecar.  Returns the updated index and the written artifacts. -/
def save (idx : FaissIndex) (path : String) : FaissIndex × SavedIndex :=
  ({ idx with last_save_path := some path },
   { entries := idx.entries, feature_dim := idx.feature_dim,
     time_steps := idx.time_steps, n_entries := idx.n_entries,
     id_map := idx.id_map, next_id := idx.next_id,
     norm_means := idx.norm_means, norm_stds := idx.norm_stds })

/-- `load(path)`: replaces the faiss index and restores the sidecar fields;
`total_dim` is recomputed; the normalization constants are restored only
when the saved means are not `None`; `last_save_path` is *not* set. -/
def load (idx : FaissIndex) (s : SavedIndex) : FaissIndex :=
  { idx with
    entries := s.entries
    feature_dim := s.feature_dim
    time_steps := s.time_steps
    total_dim := s.feature_dim * s.time_steps
    n_entries := s.n_entries
    id_map := s.id_map
    next_id := s.next_id
    norm_means := if s.norm_means.isSome then s.norm_means
                  else idx.norm_means
    norm_stds := if s.norm_means.isSome then s.norm_stds
                 else idx.norm_stds }

/-- `delete()`: reset the in-memory state; remove the on-disk artifacts
only if the index tracked a `last_save_path` (set exclusively by `save`)
and that path exists. -/
def delete (idx : FaissIndex) (files : List (String × SavedIndex)) :
    FaissIndex × List (String × SavedIndex) :=
  ({ idx with entries := [], id_map := [], next_id := 0, n_entries := 0 },
   match idx.last_save_path with
   | some p => if (files.lookup p).isSome then dictErase files p else files
   | none => files)

/-- Well-formedness of every index state the operations construct:
internal ids are exactly `0, …, ntotal-1` in order in both the faiss store
and `id_map`, `next_id` is the count, every stored vector has length
`total_dim`, and `total_dim` is the product of the dimensions. -/
def WF (idx : FaissIndex) : Prop :=
  idx.total_dim = idx.feature_dim * idx.time_steps ∧
  idx.entries.map Prod.fst = List.range idx.entries.length ∧
  idx.id_map.map Prod.fst = List.range idx.entries.length ∧
  idx.next_id = idx.entries.length ∧
  ∀ p ∈ idx.entries, p.2.length = idx.total_dim

/-- Normalization-state well-formedness: the constants are either both
absent or both present with length `feature_dim` (every state the code
builds: they are only ever set together, shape-checked, by
`set_normalization` or restored together by `load`). -/
def NormWF (idx : FaissIndex) : Prop :=
  (idx.norm_means = none ∧ idx.norm_stds = none) ∨
  (∃ mu sd, idx.norm_means = some mu ∧ idx.norm_stds = some sd ∧
    mu.length = idx.feature_dim ∧ sd.length = idx.feature_dim)

end FaissIndex

/-! ## IndexManager (`embedding_database.py` lines 344-609)

The base directory is modelled as a `Disk`: the optional
`manager_metadata.json` plus the per-index artifact files keyed by index
name (`save_index` always writes to `<base_dir>/<name>.index`, so the path
is identified with the name).  Extra caller-supplied metadata
(`extra_metadata`) is not used by any claim and is omitted from
`MetaEntry`. -/

structure MetaEntry where
  n_entries : ℕ
  feature_dim : ℕ
  time_steps : ℕ
  has_normalization : Bool
  online_norm : Bool

/-- The dictionary `{"n_entries": 0}` that `update_metadata` seeds for an
unseen name (the other fields are placeholders that the same call
immediately overwrites). -/
def MetaEntry.fresh : MetaEntry :=
  { n_entries := 0, feature_dim := 0, time_steps := 0,
    has_normalization := false, online_norm := false }

structure Disk where
  manager_metadata : Option (List (String × MetaEntry))
  files : List (String × SavedIndex)

structure IndexManager where
  indices : List (String × FaissIndex)
  metadata : List (String × MetaEntry)

namespace IndexManager

/-- `update_metadata(name, feature_dim=…, time_steps=…,
has_normalization=…, online_norm=False)`: seed `{"n_entries": 0}` for an
unseen name, then overwrite the supplied keys (preserving an existing
`n_entries`). -/
def update_metadata (m : IndexManager) (name : String) (fd ts : ℕ)
    (hasN : Bool) : IndexManager :=
  let old := (m.metadata.lookup name).getD MetaEntry.fresh
  let upd := { old with
    feature_dim := fd
    time_steps := ts
    has_normalization := hasN
    online_norm := false }
  { m with metadata := dictSet m.metadata name upd }

/-- `init_index(name, feature_dim, time_steps, norm_means, norm_stds)`
(lines 363-387): fails if `name` is already an index; otherwise constructs
a `FaissIndex`, optionally sets normalization (both constants given), and
seeds metadata with `has_normalization = (norm_means is not None)`. -/
def init_index (m : IndexManager) (name : String) (fd ts : ℕ)
    (nm ns : Option (List ℚ)) : IndexManager × Option String :=
  if (m.indices.lookup name).isSome then
    (m, some ("Index " ++ name ++ " already exists"))
  else
    let index := FaissIndex.mk0 fd ts
    let r : FaissIndex × Option String :=
      match nm, ns with
      | some mu, some sd => index.set_normalization mu sd
      | _, _ => (index, none)
    match r with
    | (_, some e) => (m, some e)
    | (index, none) =>
      (update_metadata { m with indices := dictSet m.indices name index }
        name fd ts nm.isSome, none)

/-- The second half of `add_vector` (lines 409-425), once the index is
known to exist: the dimension check (raising *before* any mutation), the
index add, and the metadata counter bump.  An error's second component is
the raised message; the first component is the state at the moment of the
raise. -/
def add_vector_existing (m : IndexManager) (name : String) (v : List ℚ)
    (eid : String) : IndexManager × Option String :=
  match m.indices.lookup name with
  | none => (m, some "KeyError")
  | some index =>
    if v.length ≠ index.total_dim then
      (m, some "Vector dimension does not match index dimension")
    else
      let index := index.add_vector v eid
      let m2 := { m with indices := dictSet m.indices name index }
      match m2.metadata.lookup name with
      | none => (m2, some "KeyError")
      | some me =>
        let me2 := { me with n_entries := me.n_entries + 1 }
        ({ m2 with metadata := dictSet m2.metadata name me2 }, none)

/-- `add_vector(name, vector, entry_id)` (lines 409-425): lazily
initializes an unseen index with `feature_dim = len(vector), time_steps=1`,
then runs the second half above. -/
def add_vector (m : IndexManager) (name : String) (v : List ℚ)
    (eid : String) : IndexManager × Option String :=
  let r : IndexManager × Option String :=
    if (m.indices.lookup name).isSome then (m, none)
    else init_index m name v.length 1 none none
  match r with
  | (m1, some e) => (m1, some e)
  | (m1, none) => add_vector_existing m1 name v eid

end IndexManager

/-- `scipy.interpolate.interp1d(xs, ys, kind="linear")` evaluated at `t`,
for strictly increasing sample points `xs` with `t` inside their range:
find the bracketing segment and interpolate linearly. -/
def interpSegments : List (ℚ × ℚ) → ℚ → ℚ
  | [], _ => 0
  | [(_, y)], _ => y
  | (x1, y1) :: (x2, y2) :: rest, t =>
    if t ≤ x2 then y1 + (t - x1) * (y2 - y1) / (x2 - x1)
    else interpSegments ((x2, y2) :: rest) t

/-- Linear interpolant of the samples `(xs, ys)` at `t`. -/
def interp1dLinear (xs ys : List ℚ) (t : ℚ) : ℚ :=
  interpSegments (xs.zip ys) t

/-- Column `f` of a matrix (`matrix[:, f]`). -/
def column (M : List (List ℚ)) (f : ℕ) : List ℚ :=
  M.map (fun row => row.getD f 0)

/-- `IndexManager._interpolate_matrix(matrix, target_time_steps)` (lines
389-407): identity when the row count already matches; otherwise evenly
spaced parameter values over `[0, 1]` for source and target row counts and
per-feature-channel linear interpolation.  `none` models the `interp1d`
exception when fewer than two sample rows exist. -/
def interpolate_matrix (M : List (List ℚ)) (target : ℕ) :
    Option (List (List ℚ)) :=
  if M.length = target then some M
  else if M.length < 2 then none
  else
    let cols := (M.headD []).length
    some ((linspace target).map (fun t =>
      (List.range cols).map (fun f =>
        interp1dLinear (linspace M.length) (column M f) t)))

namespace IndexManager

/-- `add_matrix(name, matrix, entry_id)` (lines 427-445): lazily
initializes an unseen index from the matrix's own shape, interpolates to
the index's canonical `time_steps`, normalizes (online normalization is
off), flattens row-major and delegates to `add_vector`. -/
def add_matrix (m : IndexManager) (name : String) (M : List (List ℚ))
    (eid : String) : IndexManager × Option String :=
  let r : IndexManager × Option String :=
    if (m.indices.lookup name).isSome then (m, none)
    else init_index m name (M.headD []).length M.length none none
  match r with
  | (m1, some e) => (m1, some e)
  | (m1, none) =>
    match m1.indices.lookup name with
    | none => (m1, some "KeyError")
    | some index =>
      match interpolate_matrix M index.time_steps with
      | none => (m1, some "x and y arrays must have at least 2 entries")
      | some interpolated =>
        let normalized := index.normalize_matrix interpolated
        add_vector m1 name normalized.flatten eid

/-- `search_matrix(name, query_matrix, k)` (lines 516-535): interpolate and
normalize the query like `add_matrix`, search the flat vector, reshape each
returned vector to `(time_steps, feature_dim)` and denormalize.  `none`
models a raised exception (unknown name, interpolation failure, or a
failure inside `search`). -/
def search_matrix (m : IndexManager) (name : String) (Q : List (List ℚ))
    (k : ℕ) : Option (List ℚ × List String × List (List (List ℚ))) := do
  let index ← m.indices.lookup name
  let interpolated ← interpolate_matrix Q index.time_steps
  let qv := (index.normalize_matrix interpolated).flatten
  let (distances, ids, vectors) ← index.search qv k
  let matrices := vectors.map (fun v =>
    index.denormalize_matrix (unflatten index.feature_dim v))
  return (distances, ids, matrices)

/-- `save()` (lines 478-492): `save_index` every index under
`<name>.index` (each call mutates the index object's `last_save_path` and
writes its artifact file), then write `manager_metadata.json`. -/
def save (m : IndexManager) (disk : Disk) : IndexManager × Disk :=
  ({ m with indices := m.indices.map (fun p => (p.1, (p.2.save p.1).1)) },
   { manager_metadata := some m.metadata,
     files := m.indices.foldl
       (fun fs p => dictSet fs p.1 (p.2.save p.1).2) disk.files })

/-- `load_index(name)` (lines 468-476): if `<name>.index` exists, load it
into the live index and refresh the metadata `has_normalization` flag.
(The `KeyError` branches are unreachable from `load`, which initializes
the index and its metadata first.) -/
def load_index (m : IndexManager) (name : String) (disk : Disk) :
    IndexManager :=
  match disk.files.lookup name with
  | none => m
  | some s =>
    match m.indices.lookup name with
    | none => m
    | some idx =>
      let idx := idx.load s
      let m1 := { m with indices := dictSet m.indices name idx }
      match m1.metadata.lookup name with
      | none => m1
      | some me =>
        let me2 := { me with has_normalization := idx.norm_means.isSome }
        { m1 with metadata := dictSet m1.metadata name me2 }

/-- The `for path in base_dir.iterdir()` loop of `load`: for every
`.index` file whose name has manager metadata, `init_index` with the
metadata dimensions (a raise aborts the loop and propagates) and then
`load_index`. -/
def loadLoop (disk : Disk) :
    IndexManager → List (String × SavedIndex) → IndexManager × Option String
  | m, [] => (m, none)
  | m, (name, _) :: rest =>
    match m.metadata.lookup name with
    | none => loadLoop disk m rest
    | some md =>
      match init_index m name md.feature_dim md.time_steps none none with
      | (m1, some e) => (m1, some e)
      | (m1, none) => loadLoop disk (load_index m1 name disk) rest

/-- `load()` (lines 447-466): replace the manager metadata wholesale with
`manager_metadata.json` when it exists, then load every index file that
has metadata. -/
def load (m : IndexManager) (disk : Disk) : IndexManager × Option String :=
  let m1 := match disk.manager_metadata with
    | some md => { m with metadata := md }
    | none => m
  loadLoop disk m1 disk.files

/-- `delete_index(name)` (lines 602-609): reject an unknown name; delete
the index (memory reset plus best-effort file removal), drop it from
`indices` and `metadata`, and re-persist everything via `save()`. -/
def delete_index (m : IndexManager) (disk : Disk) (name : String) :
    (IndexManager × Disk) × Option String :=
  match m.indices.lookup name with
  | none => ((m, disk), some ("Index " ++ name ++ " does not exist"))
  | some idx =>
    let r := idx.delete disk.files
    let m1 := { m with indices := dictErase m.indices name,
                       metadata := dictErase m.metadata name }
    (save m1 { disk with files := r.2 }, none)

end IndexManager

/-- `IndexManager(base_dir, FaissIndex)` (constructor): start empty and run
`load()` over the base directory. -/
def mkIndexManager (disk : Disk) : IndexManager × Option String :=
  IndexManager.load { indices := [], metadata := [] } disk

/-- The operations quantified over by the consistency claim (the listed
`load` is treated separately: it is the one operation that breaks the
invariant). -/
inductive Op where
  | initIdx (name : String) (fd ts : ℕ) (nm ns : Option (List ℚ))
  | addVec (name : String) (v : List ℚ) (eid : String)
  | addMat (name : String) (M : List (List ℚ)) (eid : String)
  | delIdx (name : String)

/-- Apply one operation; a raised exception leaves the state the Python
interpreter leaves behind (captured in each operation's error component). -/
def applyOp (s : IndexManager × Disk) : Op → IndexManager × Disk
  | .initIdx n fd ts nm ns => ((s.1.init_index n fd ts nm ns).1, s.2)
  | .addVec n v e => ((s.1.add_vector n v e).1, s.2)
  | .addMat n M e => ((s.1.add_matrix n M e).1, s.2)
  | .delIdx n => (s.1.delete_index s.2 n).1

def applyOps (s : IndexManager × Disk) (ops : List Op) :
    IndexManager × Disk :=
  ops.foldl applyOp s

/-- The consistency invariant of claim C4: every live index has a metadata
entry whose dimensions and entry count match the index. -/
def Consistent (m : IndexManager) : Prop :=
  ∀ name idx, m.indices.lookup name = some idx →
    ∃ me, m.metadata.lookup name = some me ∧
      me.feature_dim = idx.feature_dim ∧ me.time_steps = idx.time_steps ∧
      me.n_entries = idx.n_entries

/-- Strengthened invariant actually preserved by the operations: metadata
names and index names coincide (rules out stale metadata-only entries,
which only a wholesale metadata replacement by `load` can introduce). -/
def StrongConsistent (m : IndexManager) : Prop :=
  Consistent m ∧
  ∀ name, (m.metadata.lookup name).isSome → (m.indices.lookup name).isSome

end Ares

namespace Ares

/-! # Theorems -/

namespace NormalizationTracker

theorem welfordInv_updateRow {d : ℕ} {tr : NormalizationTracker d}
    {ps : List (Fin d → ℚ)} (h : WelfordInv tr ps) (x : Fin d → ℚ) :
    WelfordInv (updateRow tr x) (ps ++ [x]) := by
  obtain ⟨hc, hj⟩ := h
  refine ⟨by simp [updateRow, hc], fun j => ?_⟩
  obtain ⟨hm, hM2⟩ := hj j
  have hS1 : S1 (ps ++ [x]) j = S1 ps j + x j := by simp [S1]
  have hS2 : S2 (ps ++ [x]) j = S2 ps j + (x j) ^ 2 := by simp [S2]
  have hn1 : ((ps.length : ℚ) + 1) ≠ 0 := by positivity
  rcases eq_or_ne ps [] with rfl | hne
  · -- first processed row: the mean is overwritten and M2 stays 0
    have hM20 : tr.M2 j = 0 := by simpa [S1, S2] using hM2
    constructor
    · simp only [updateRow, hc, hS1, List.nil_append, List.length_cons,
        List.length_nil, S1, List.map_cons, List.map_nil, List.sum_cons,
        List.sum_nil]
      push_cast
      ring
    · simp only [updateRow, hc, hM20, List.nil_append, List.length_cons,
        List.length_nil, S1, S2, List.map_cons, List.map_nil, List.sum_cons,
        List.sum_nil]
      push_cast
      field_simp
  · -- later rows: algebra over a nonzero previous count
    have hpos : 0 < ps.length := List.length_pos.mpr hne
    have hnne : ((ps.length : ℚ)) ≠ 0 := by positivity
    constructor
    · simp only [updateRow, hc, hS1, List.length_append, List.length_cons,
        List.length_nil]
      push_cast
      field_simp
      linear_combination hm
    · have hM2' : tr.M2 j = S2 ps j - (ps.length : ℚ) * tr.mean j ^ 2 := by
        rw [hM2, ← hm]
        field_simp
        ring
      simp only [updateRow, hc, hS1, hS2, List.length_append, List.length_cons,
        List.length_nil]
      push_cast
      rw [hM2', ← hm]
      field_simp
      ring

theorem welfordInv_foldl {d : ℕ} (rest : List (Fin d → ℚ)) :
    ∀ tr ps, WelfordInv tr ps →
      WelfordInv (List.foldl updateRow tr rest) (ps ++ rest) := by
  induction rest with
  | nil => intro tr ps h; simpa using h
  | cons x xs ih =>
    intro tr ps h
    have := ih (updateRow tr x) (ps ++ [x]) (welfordInv_updateRow h x)
    simpa using this

theorem welfordInv_update_online {d : ℕ} (M : List (Fin d → ℚ)) :
    WelfordInv (update_online (init d) M) M := by
  have h0 : WelfordInv (init d) [] := by
    refine ⟨rfl, fun j => ?_⟩
    simp [init, S1, S2]
  simpa using welfordInv_foldl M (init d) [] h0

theorem sum_sq_dev {d : ℕ} (M : List (Fin d → ℚ)) (j : Fin d) (c : ℚ) :
    (M.map (fun r => (r j - c) ^ 2)).sum
      = S2 M j - 2 * c * S1 M j + (M.length : ℚ) * c ^ 2 := by
  induction M with
  | nil => simp [S1, S2]
  | cons r rs ih =>
    simp only [List.map_cons, List.sum_cons, S1, S2, List.length_cons] at *
    push_cast
    linear_combination ih

/-- C3 counterexample: on the batch `[[0], [2]]` (two rows, one feature
channel) the row-by-row online statistics and the whole-batch statistics
differ: the online variance is `M2 / (count - 1) = 2` (standard deviation
`sqrt 2`), while the batch variance is the population variance `1`
(standard deviation `1`) — a systematic factor `count / (count - 1)`, not a
floating-point tolerance. -/
theorem claim_C3_counterexample :
    get_current_stats (update_online (init 1) [fun _ => 0, fun _ => 2])
      ≠ compute_batch_stats [[fun _ => (0 : ℚ), fun _ => 2]] := by
  intro h
  have h2 := congrArg (fun p => p.2 0) h
  norm_num [update_online, updateRow, init, get_current_stats,
    compute_batch_stats, batchMean, batchVar] at h2

/-- C3 (amended): `update_online` applied row-by-row over a nonempty batch
reproduces the batch *mean* exactly, and its `M2` accumulator equals the
column sums of squared deviations, i.e. `count` times the batch
(population) variance.  The reported standard deviations therefore differ
by the Bessel factor `sqrt (count / (count - 1))`: `update_online` divides
`M2` by `count - 1` while `compute_batch_stats` divides by `count`, so the
two `(mean, std)` pairs agree in the mean but not in the std (except for
zero-variance channels or batches of fewer than two rows). -/
theorem claim_C3 {d : ℕ} (M : List (Fin d → ℚ)) (hM : M ≠ []) :
    (update_online (init d) M).mean = (compute_batch_stats [M]).1 ∧
    ∀ j, (update_online (init d) M).M2 j = (M.length : ℚ) * batchVar M j := by
  obtain ⟨hc, hj⟩ := welfordInv_update_online M
  have hpos : 0 < M.length := List.length_pos.mpr hM
  have hn : ((M.length : ℚ)) ≠ 0 := by positivity
  constructor
  · funext j
    have h1 := (hj j).1
    have : (compute_batch_stats [M]).1 j = S1 M j / (M.length : ℚ) := by
      simp [compute_batch_stats, batchMean, S1]
    rw [this, eq_div_iff hn, mul_comm]
    exact h1
  · intro j
    have h2 := (hj j).2
    rw [h2]
    have hc' : batchMean M j = S1 M j / (M.length : ℚ) := rfl
    have hbv : batchVar M j
        = (S2 M j - 2 * batchMean M j * S1 M j
            + (M.length : ℚ) * batchMean M j ^ 2) / (M.length : ℚ) := by
      simp only [batchVar, sum_sq_dev M j (batchMean M j)]
    rw [hbv, hc']
    field_simp
    ring

/-- C3 witness: the amended theorem applied to the concrete batch
`[[0], [2]]`. -/
theorem claim_C3_witness :
    ([fun _ => 0, fun _ => 2] : List (Fin 1 → ℚ)) ≠ [] ∧
    ((update_online (init 1) [fun _ => 0, fun _ => 2]).mean
        = (compute_batch_stats [[fun _ => (0 : ℚ), fun _ => 2]]).1 ∧
      ∀ j, (update_online (init 1) [fun _ => 0, fun _ => 2]).M2 j
          = ((2 : ℚ)) * batchVar [fun _ => (0 : ℚ), fun _ => 2] j) := by
  refine ⟨by simp, ?_⟩
  have h := claim_C3 (d := 1) [fun _ => 0, fun _ => 2] (by simp)
  simpa using h

end NormalizationTracker

/-! ## Normalization round trip (C7) -/

theorem rowDenorm_rowNorm (row : List ℚ) : ∀ mu sd : List ℚ,
    row.length = mu.length → mu.length = sd.length →
    (∀ s ∈ sd, s ≠ 0) →
    rowDenormalize mu sd (rowNormalize mu sd row) = row := by
  induction row with
  | nil => intro mu sd h1 h2 hs; simp [rowNormalize, rowDenormalize]
  | cons x xs ih =>
    intro mu sd h1 h2 hs
    rcases mu with _ | ⟨mh, mt⟩
    · simp at h1
    rcases sd with _ | ⟨sh, st⟩
    · simp at h2
    have hsne : sh ≠ 0 := hs sh (by simp)
    have htail := ih mt st (by simpa using h1) (by simpa using h2)
      (fun s hs2 => hs s (List.mem_cons_of_mem _ hs2))
    simp only [rowNormalize, rowDenormalize, List.zipWith_cons_cons,
      List.cons.injEq] at htail ⊢
    constructor
    · field_simp
    · exact htail

theorem map_denorm_norm (mu sd : List ℚ) (h2 : mu.length = sd.length)
    (hnz : ∀ s ∈ sd, s ≠ 0) (M : List (List ℚ))
    (hlen : ∀ row ∈ M, row.length = mu.length) :
    (M.map (rowNormalize mu sd)).map (rowDenormalize mu sd) = M := by
  induction M with
  | nil => simp
  | cons r rs ih =>
    simp only [List.map_cons, List.cons.injEq]
    exact ⟨rowDenorm_rowNorm r mu sd (hlen r (by simp)) h2 hnz,
      ih (fun row hr => hlen row (by simp [hr]))⟩

/-- C7: for every index whose normalization constants are set with every
std entry nonzero, `denormalize_matrix (normalize_matrix M) = M` exactly
(the claim's "within floating-point tolerance" holds exactly in the
rational model); when no normalization has been set, both maps are the
identity. -/
theorem claim_C7 (idx : FaissIndex) (M : List (List ℚ)) :
    (∀ mu sd, idx.norm_means = some mu → idx.norm_stds = some sd →
      mu.length = idx.feature_dim → sd.length = idx.feature_dim →
      (∀ s ∈ sd, s ≠ 0) →
      (∀ row ∈ M, row.length = idx.feature_dim) →
      idx.denormalize_matrix (idx.normalize_matrix M) = M) ∧
    ((idx.norm_means = none ∨ idx.norm_stds = none) →
      idx.normalize_matrix M = M ∧ idx.denormalize_matrix M = M) := by
  constructor
  · intro mu sd hm hsd hml hsl hnz hrow
    simp only [FaissIndex.normalize_matrix, FaissIndex.denormalize_matrix,
      hm, hsd]
    exact map_denorm_norm mu sd (by rw [hml, hsl]) hnz M
      (fun row hr => by rw [hrow row hr, hml])
  · intro h
    rcases h with h | h
    · simp [FaissIndex.normalize_matrix, FaissIndex.denormalize_matrix, h]
    · cases hm : idx.norm_means with
      | none =>
        simp [FaissIndex.normalize_matrix, FaissIndex.denormalize_matrix,
          hm, h]
      | some mu =>
        simp [FaissIndex.normalize_matrix, FaissIndex.denormalize_matrix,
          hm, h]

/-- C7 witness: round trip through normalization constants
`mean = [0], std = [1]` on the matrix `[[5]]`. -/
theorem claim_C7_witness :
    FaissIndex.denormalize_matrix
        { FaissIndex.mk0 1 1 with norm_means := some [0], norm_stds := some [1] }
        (FaissIndex.normalize_matrix
          { FaissIndex.mk0 1 1 with norm_means := some [0], norm_stds := some [1] }
          [[5]]) = [[5]] := by
  have h := (claim_C7
    { FaissIndex.mk0 1 1 with norm_means := some [0], norm_stds := some [1] }
    [[5]]).1
  exact h [0] [1] rfl rfl rfl rfl (by norm_num)
    (by norm_num [FaissIndex.mk0])

/-! ## Interpolation (C9) -/

/-- C9: `_interpolate_matrix(M, T)` with `T` equal to the row count returns
`M` itself, exactly (no interpolation is performed); for `T` different
from the row count (and at least two source rows) it produces, for each of
the `T` evenly spaced target parameter values over `[0, 1]`, the value of
the per-feature-channel piecewise-linear interpolant over the source's
evenly spaced parameter values. -/
theorem claim_C9 (M : List (List ℚ)) (D T : ℕ)
    (hD : ∀ row ∈ M, row.length = D) (h2 : 2 ≤ M.length) :
    (T = M.length → interpolate_matrix M T = some M) ∧
    (T ≠ M.length → interpolate_matrix M T
        = some ((linspace T).map (fun t => (List.range D).map (fun f =>
            interp1dLinear (linspace M.length) (column M f) t)))) := by
  constructor
  · intro hT
    simp [interpolate_matrix, hT]
  · intro hT
    have hhead : (M.headD []).length = D := by
      rcases M with _ | ⟨r, rs⟩
      · simp at h2
      · exact hD r (by simp)
    have hne : ¬ (M.length = T) := fun h => hT h.symm
    have hlt : ¬ (M.length < 2) := by omega
    simp only [interpolate_matrix, if_neg hne, if_neg hlt]
    rw [hhead]

/-- C9 witness: the identity clause at the concrete matrix `[[1], [2]]`
interpolated to its own row count `T = 2`. -/
theorem claim_C9_witness :
    (∀ row ∈ [[(1 : ℚ)], [2]], row.length = 1) ∧ 2 ≤ 2 ∧
    interpolate_matrix [[(1 : ℚ)], [2]] 2 = some [[(1 : ℚ)], [2]] := by
  refine ⟨by norm_num, le_refl 2, ?_⟩
  exact (claim_C9 [[(1 : ℚ)], [2]] 1 2 (by norm_num) (by norm_num)).1 rfl

/-! ## init_index on an existing name (C8) -/

/-- C8: `init_index` on a name that is already a live index raises
(`ValueError`) and returns with the manager state untouched — the existing
index and its metadata are exactly as before the call. -/
theorem claim_C8 (m : IndexManager) (name : String) (fd ts : ℕ)
    (nm ns : Option (List ℚ)) (h : (m.indices.lookup name).isSome) :
    m.init_index name fd ts nm ns
      = (m, some ("Index " ++ name ++ " already exists")) := by
  simp [IndexManager.init_index, h]

/-- C8 witness: re-initializing the one-index manager `{"i" ↦ fresh}`. -/
theorem claim_C8_witness :
    ((IndexManager.mk [("i", FaissIndex.mk0 1 1)]
        [("i", MetaEntry.fresh)]).indices.lookup "i").isSome ∧
    (IndexManager.mk [("i", FaissIndex.mk0 1 1)]
        [("i", MetaEntry.fresh)]).init_index "i" 2 3 none none
      = (IndexManager.mk [("i", FaissIndex.mk0 1 1)] [("i", MetaEntry.fresh)],
         some ("Index " ++ "i" ++ " already exists")) := by
  refine ⟨by simp, ?_⟩
  exact claim_C8 _ "i" 2 3 none none (by simp)

/-! ## add_vector error atomicity (C10) -/

/-- C10: on an existing index, `add_vector` with a vector whose length
differs from `total_dim` raises a `ValueError` with all state unchanged
(the length check precedes every mutation); with the matching length it
adds the vector and increments both the index's `n_entries` and the
manager's metadata counter — the metadata counter is bumped exactly when
the underlying add succeeds. -/
theorem claim_C10 (m : IndexManager) (name : String) (v : List ℚ)
    (eid : String) (idx : FaissIndex) (me : MetaEntry)
    (hidx : m.indices.lookup name = some idx)
    (hme : m.metadata.lookup name = some me) :
    (v.length ≠ idx.total_dim →
      m.add_vector name v eid
        = (m, some "Vector dimension does not match index dimension")) ∧
    (v.length = idx.total_dim →
      m.add_vector name v eid
        = (IndexManager.mk (dictSet m.indices name (idx.add_vector v eid))
            (dictSet m.metadata name
              { me with n_entries := me.n_entries + 1 }), none)) := by
  constructor
  · intro h
    simp [IndexManager.add_vector, IndexManager.add_vector_existing,
      hidx, hme, h]
  · intro h
    simp [IndexManager.add_vector, IndexManager.add_vector_existing,
      hidx, hme, h]

/-- C10 witness: a two-entry vector against a `total_dim = 1` index is
rejected with the manager unchanged. -/
theorem claim_C10_witness :
    ((IndexManager.mk [("i", FaissIndex.mk0 1 1)]
        [("i", MetaEntry.fresh)]).indices.lookup "i"
      = some (FaissIndex.mk0 1 1)) ∧
    (([(1 : ℚ), 2] : List ℚ).length ≠ (FaissIndex.mk0 1 1).total_dim) ∧
    (IndexManager.mk [("i", FaissIndex.mk0 1 1)]
        [("i", MetaEntry.fresh)]).add_vector "i" [(1 : ℚ), 2] "a"
      = (IndexManager.mk [("i", FaissIndex.mk0 1 1)] [("i", MetaEntry.fresh)],
         some "Vector dimension does not match index dimension") := by
  refine ⟨by simp, by simp [FaissIndex.mk0], ?_⟩
  exact (claim_C10 _ "i" [1, 2] "a" (FaissIndex.mk0 1 1) MetaEntry.fresh
    (by simp) (by simp)).1 (by simp [FaissIndex.mk0])

/-! ## Dictionary lemmas -/

theorem lookup_map_overwrite {α : Type} (l : List (String × α)) (k : String)
    (v : α) (h : (l.lookup k).isSome) :
    (l.map (fun p => if p.1 = k then (k, v) else p)).lookup k = some v := by
  induction l with
  | nil => simp [List.lookup] at h
  | cons p t ih =>
    obtain ⟨a, b⟩ := p
    by_cases hp : a = k
    · subst hp
      simp [List.lookup_cons]
    · have hk : (k == a) = false := by
        simp [Ne.symm hp]
      simp only [List.lookup_cons, hk] at h
      simp only [List.map_cons, if_neg (show ¬ (a, b).1 = k from hp),
        List.lookup_cons, hk]
      exact ih h

theorem lookup_append_sing {α : Type} (l : List (String × α)) (k : String)
    (v : α) (h : l.lookup k = none) : (l ++ [(k, v)]).lookup k = some v := by
  induction l with
  | nil => simp [List.lookup_cons]
  | cons p t ih =>
    obtain ⟨a, b⟩ := p
    by_cases hp : k = a
    · simp only [List.lookup_cons, hp, beq_self_eq_true] at h
      simp at h
    · have hk : (k == a) = false := by simp [hp]
      simp only [List.lookup_cons, hk] at h
      simp only [List.cons_append, List.lookup_cons, hk]
      exact ih h

theorem lookup_dictSet_self {α : Type} (l : List (String × α)) (k : String)
    (v : α) : (dictSet l k v).lookup k = some v := by
  by_cases h : (l.lookup k).isSome
  · simp only [dictSet, h, if_true]
    exact lookup_map_overwrite l k v h
  · have hn : l.lookup k = none := Option.not_isSome_iff_eq_none.mp h
    simp only [dictSet, h, Bool.false_eq_true, if_false]
    exact lookup_append_sing l k v hn

theorem lookup_map_overwrite_ne {α : Type} (l : List (String × α))
    (k k' : String) (v : α) (h : k' ≠ k) :
    (l.map (fun p => if p.1 = k then (k, v) else p)).lookup k'
      = l.lookup k' := by
  have hkk : (k' == k) = false := by simp [h]
  induction l with
  | nil => simp
  | cons p t ih =>
    obtain ⟨a, b⟩ := p
    by_cases hp : a = k
    · subst hp
      simpa [List.lookup_cons, hkk] using ih
    · simp only [List.map_cons, if_neg (show ¬ (a, b).1 = k from hp),
        List.lookup_cons]
      by_cases hk : (k' == a) = true
      · simp [hk]
      · simp only [Bool.not_eq_true] at hk
        simp only [hk]
        exact ih

theorem lookup_append_sing_ne {α : Type} (l : List (String × α))
    (k k' : String) (v : α) (h : k' ≠ k) :
    (l ++ [(k, v)]).lookup k' = l.lookup k' := by
  have hkk : (k' == k) = false := by simp [h]
  induction l with
  | nil => simp [List.lookup_cons, hkk]
  | cons p t ih =>
    obtain ⟨a, b⟩ := p
    simp only [List.cons_append, List.lookup_cons]
    by_cases hk : (k' == a) = true
    · simp [hk]
    · simp only [Bool.not_eq_true] at hk
      simp only [hk]
      exact ih

theorem lookup_dictSet_ne {α : Type} (l : List (String × α)) (k k' : String)
    (v : α) (h : k' ≠ k) : (dictSet l k v).lookup k' = l.lookup k' := by
  unfold dictSet
  split
  · exact lookup_map_overwrite_ne l k k' v h
  · exact lookup_append_sing_ne l k k' v h

theorem lookup_dictErase_self {α : Type} (l : List (String × α))
    (k : String) : (dictErase l k).lookup k = none := by
  induction l with
  | nil => simp [dictErase]
  | cons p t ih =>
    obtain ⟨a, b⟩ := p
    by_cases hp : a = k
    · subst hp
      simpa [dictErase, List.filter_cons] using ih
    · have hk : (k == a) = false := by simp [Ne.symm hp]
      simp only [dictErase, List.filter_cons] at ih ⊢
      simpa [hp, List.lookup_cons, hk] using ih

theorem lookup_dictErase_ne {α : Type} (l : List (String × α))
    (k k' : String) (h : k' ≠ k) :
    (dictErase l k).lookup k' = l.lookup k' := by
  induction l with
  | nil => simp [dictErase]
  | cons p t ih =>
    obtain ⟨a, b⟩ := p
    by_cases hp : a = k
    · subst hp
      have hk : (k' == a) = false := by simp [h]
      simp only [dictErase, List.filter_cons] at ih ⊢
      simpa [List.lookup_cons, hk] using ih
    · simp only [dictErase, List.filter_cons] at ih ⊢
      by_cases hk : (k' == a) = true
      · simp [hp, List.lookup_cons, hk]
      · simp only [Bool.not_eq_true] at hk
        simpa [hp, List.lookup_cons, hk] using ih

theorem lookup_save_indices (l : List (String × FaissIndex)) (k : String) :
    (l.map (fun p => (p.1, (p.2.save p.1).1))).lookup k
      = (l.lookup k).map (fun idx => (idx.save k).1) := by
  induction l with
  | nil => simp
  | cons p t ih =>
    obtain ⟨a, b⟩ := p
    by_cases hk : k = a
    · subst hk
      simp [List.lookup_cons]
    · have hk2 : (k == a) = false := by simp [hk]
      simp only [List.map_cons, List.lookup_cons, hk2]
      exact ih

/-! ## Manager consistency (C4) -/

theorem strong_pair {m : IndexManager} (h : StrongConsistent m)
    (n : String) (idx : FaissIndex) (me : MetaEntry)
    (hfd : me.feature_dim = idx.feature_dim)
    (hts : me.time_steps = idx.time_steps)
    (hne : me.n_entries = idx.n_entries) :
    StrongConsistent
      ⟨dictSet m.indices n idx, dictSet m.metadata n me⟩ := by
  constructor
  · intro name idx' hl
    dsimp only at hl ⊢
    by_cases hn : name = n
    · subst hn
      rw [lookup_dictSet_self] at hl
      injection hl with hl
      subst hl
      exact ⟨me, lookup_dictSet_self _ _ _, hfd, hts, hne⟩
    · rw [lookup_dictSet_ne _ _ _ _ hn] at hl
      obtain ⟨me', hme', h1, h2, h3⟩ := h.1 name idx' hl
      exact ⟨me', by rw [lookup_dictSet_ne _ _ _ _ hn]; exact hme', h1, h2, h3⟩
  · intro name hname
    dsimp only at hname ⊢
    by_cases hn : name = n
    · subst hn
      rw [lookup_dictSet_self]
      rfl
    · rw [lookup_dictSet_ne _ _ _ _ hn] at hname ⊢
      exact h.2 name hname

theorem sc_update_metadata_absent {m : IndexManager} (h : StrongConsistent m)
    (n : String) (fd ts : ℕ) (b : Bool) (index : FaissIndex)
    (habs : m.indices.lookup n = none)
    (hfd : index.feature_dim = fd) (hts : index.time_steps = ts)
    (hn0 : index.n_entries = 0) :
    StrongConsistent
      (IndexManager.update_metadata
        { m with indices := dictSet m.indices n index } n fd ts b) := by
  have hmd : m.metadata.lookup n = none := by
    by_contra hc
    have h1 : (m.metadata.lookup n).isSome := Option.ne_none_iff_isSome.mp hc
    have h2 := h.2 n h1
    rw [habs] at h2
    simp at h2
  unfold IndexManager.update_metadata
  dsimp only
  rw [hmd]
  simp only [Option.getD_none]
  exact strong_pair h n index _ (by simp [MetaEntry.fresh, hfd])
    (by simp [MetaEntry.fresh, hts]) (by simp [MetaEntry.fresh, hn0])

theorem init_index_absent (m : IndexManager) (n : String) (fd ts : ℕ)
    (habs : m.indices.lookup n = none) :
    m.init_index n fd ts none none
      = (IndexManager.update_metadata
          { m with indices := dictSet m.indices n (FaissIndex.mk0 fd ts) }
          n fd ts false, none) := by
  unfold IndexManager.init_index
  simp [habs]

theorem sc_init_index {m : IndexManager} (h : StrongConsistent m)
    (n : String) (fd ts : ℕ) (nm ns : Option (List ℚ)) :
    StrongConsistent (m.init_index n fd ts nm ns).1 := by
  unfold IndexManager.init_index
  by_cases hl : (m.indices.lookup n).isSome
  · simp only [hl, if_true]
    exact h
  · have habs : m.indices.lookup n = none :=
      Option.not_isSome_iff_eq_none.mp hl
    simp only [hl, Bool.false_eq_true, if_false]
    rcases nm with _ | mu <;> rcases ns with _ | sd
    · dsimp only
      exact sc_update_metadata_absent h n fd ts _ _ habs rfl rfl rfl
    · dsimp only
      exact sc_update_metadata_absent h n fd ts _ _ habs rfl rfl rfl
    · dsimp only
      exact sc_update_metadata_absent h n fd ts _ _ habs rfl rfl rfl
    · by_cases hshape : (mu.length ≠ (FaissIndex.mk0 fd ts).feature_dim
          ∨ sd.length ≠ (FaissIndex.mk0 fd ts).feature_dim)
      · simp only [FaissIndex.set_normalization, if_pos hshape]
        exact h
      · simp only [FaissIndex.set_normalization, if_neg hshape]
        exact sc_update_metadata_absent h n fd ts _ _ habs rfl rfl rfl

theorem sc_add_vector_existing {m : IndexManager} (h : StrongConsistent m)
    (n : String) (v : List ℚ) (eid : String) :
    StrongConsistent (m.add_vector_existing n v eid).1 := by
  unfold IndexManager.add_vector_existing
  cases hl : m.indices.lookup n with
  | none => exact h
  | some idx =>
    dsimp only
    split
    · exact h
    · obtain ⟨me, hme, h1, h2, h3⟩ := h.1 n idx hl
      rw [hme]
      exact strong_pair h n (idx.add_vector v eid) _
        (by simp [FaissIndex.add_vector, h1])
        (by simp [FaissIndex.add_vector, h2])
        (by simp [FaissIndex.add_vector, h3])

theorem sc_add_vector {m : IndexManager} (h : StrongConsistent m)
    (n : String) (v : List ℚ) (eid : String) :
    StrongConsistent (m.add_vector n v eid).1 := by
  unfold IndexManager.add_vector
  by_cases hl : (m.indices.lookup n).isSome
  · simp only [hl, if_true]
    exact sc_add_vector_existing h n v eid
  · have habs : m.indices.lookup n = none :=
      Option.not_isSome_iff_eq_none.mp hl
    simp only [hl, Bool.false_eq_true, if_false,
      init_index_absent m n v.length 1 habs]
    exact sc_add_vector_existing
      (sc_update_metadata_absent h n v.length 1 false _ habs rfl rfl rfl)
      n v eid

theorem sc_add_matrix {m : IndexManager} (h : StrongConsistent m)
    (n : String) (M : List (List ℚ)) (eid : String) :
    StrongConsistent (m.add_matrix n M eid).1 := by
  unfold IndexManager.add_matrix
  by_cases hl : (m.indices.lookup n).isSome
  · simp only [hl, if_true]
    cases hli : m.indices.lookup n with
    | none => rw [hli] at hl; simp at hl
    | some idx =>
      dsimp only
      cases hint : interpolate_matrix M idx.time_steps with
      | none => exact h
      | some interp =>
        dsimp only
        exact sc_add_vector h n _ eid
  · have habs : m.indices.lookup n = none :=
      Option.not_isSome_iff_eq_none.mp hl
    simp only [hl, Bool.false_eq_true, if_false,
      init_index_absent m n (M.headD []).length M.length habs]
    have hsc1 := sc_update_metadata_absent h n (M.headD []).length M.length
      false (FaissIndex.mk0 (M.headD []).length M.length) habs rfl rfl rfl
    set mi := FaissIndex.mk0 (M.headD []).length M.length with hmi
    set m1 := IndexManager.update_metadata
      { m with indices := dictSet m.indices n mi }
      n (M.headD []).length M.length false with hm1
    cases hli : m1.indices.lookup n with
    | none => exact hsc1
    | some idx =>
      dsimp only
      cases hint : interpolate_matrix M idx.time_steps with
      | none => exact hsc1
      | some interp =>
        dsimp only
        exact sc_add_vector hsc1 n _ eid

theorem sc_save {m : IndexManager} (h : StrongConsistent m) (d : Disk) :
    StrongConsistent (m.save d).1 := by
  unfold IndexManager.save
  constructor
  · intro name idx' hl
    dsimp only at hl ⊢
    rw [lookup_save_indices] at hl
    obtain ⟨idx, hidx, hfx⟩ := Option.map_eq_some'.mp hl
    obtain ⟨me, hme, h1, h2, h3⟩ := h.1 name idx hidx
    refine ⟨me, hme, ?_, ?_, ?_⟩
    · rw [← hfx]; simpa [FaissIndex.save] using h1
    · rw [← hfx]; simpa [FaissIndex.save] using h2
    · rw [← hfx]; simpa [FaissIndex.save] using h3
  · intro name hname
    dsimp only at hname ⊢
    rw [lookup_save_indices]
    obtain ⟨x, hx⟩ := Option.isSome_iff_exists.mp (h.2 name hname)
    rw [hx]
    rfl

theorem sc_delete_index {m : IndexManager} (h : StrongConsistent m)
    (d : Disk) (n : String) :
    StrongConsistent ((m.delete_index d n).1).1 := by
  unfold IndexManager.delete_index
  cases hl : m.indices.lookup n with
  | none => exact h
  | some idx =>
    dsimp only
    have herased : StrongConsistent
        ⟨dictErase m.indices n, dictErase m.metadata n⟩ := by
      constructor
      · intro name idx' hle
        dsimp only at hle ⊢
        by_cases hn : name = n
        · subst hn
          rw [lookup_dictErase_self] at hle
          simp at hle
        · rw [lookup_dictErase_ne _ _ _ hn] at hle
          obtain ⟨me, hme, h1, h2, h3⟩ := h.1 name idx' hle
          exact ⟨me, by rw [lookup_dictErase_ne _ _ _ hn]; exact hme,
            h1, h2, h3⟩
      · intro name hname
        dsimp only at hname ⊢
        by_cases hn : name = n
        · subst hn
          rw [lookup_dictErase_self] at hname
          simp at hname
        · rw [lookup_dictErase_ne _ _ _ hn] at hname ⊢
          exact h.2 name hname
    exact sc_save herased _

theorem sc_applyOp (s : IndexManager × Disk) (op : Op)
    (h : StrongConsistent s.1) : StrongConsistent (applyOp s op).1 := by
  cases op with
  | initIdx n fd ts nm ns => exact sc_init_index h n fd ts nm ns
  | addVec n v e => exact sc_add_vector h n v e
  | addMat n M e => exact sc_add_matrix h n M e
  | delIdx n => exact sc_delete_index h s.2 n

theorem sc_applyOps (ops : List Op) :
    ∀ s : IndexManager × Disk, StrongConsistent s.1 →
      StrongConsistent (applyOps s ops).1 := by
  induction ops with
  | nil => intro s h; exact h
  | cons op t ih =>
    intro s h
    exact ih (applyOp s op) (sc_applyOp s op h)

/-- C4 counterexample: the operation sequence `init_index("i"); delete_index
("i"); init_index("j"); load()` — each call succeeding — ends with index
`"j"` live but absent from manager metadata: `delete_index` persisted a
metadata file, and the mid-session `load()` replaced `self.metadata`
wholesale with that file while keeping the in-memory `indices` dict. -/
theorem claim_C4_counterexample :
    ¬ Consistent
      ((IndexManager.load
        (applyOps (IndexManager.mk [] [], Disk.mk none [])
          [Op.initIdx "i" 1 1 none none, Op.delIdx "i",
           Op.initIdx "j" 1 1 none none]).1
        (applyOps (IndexManager.mk [] [], Disk.mk none [])
          [Op.initIdx "i" 1 1 none none, Op.delIdx "i",
           Op.initIdx "j" 1 1 none none]).2).1) := by
  intro h
  obtain ⟨me, hme, -⟩ := h "j" (FaissIndex.mk0 1 1) (by rfl)
  revert hme
  simp [List.lookup]

/-- C4 (amended): starting from any manager whose metadata and index name
sets coincide with matching dimensions and counts (e.g. a fresh manager),
every sequence of `init_index`, `add_vector`, `add_matrix`, and
`delete_index` calls — successful or raising — preserves the claimed
invariant: every live index has a metadata entry whose `feature_dim`,
`time_steps` and `n_entries` equal the live index's values.  A mid-session
`load()` is excluded: it replaces the metadata wholesale from disk while
keeping the in-memory indices (see the counterexample). -/
theorem claim_C4 (m : IndexManager) (d : Disk) (ops : List Op)
    (h : StrongConsistent m) : Consistent (applyOps (m, d) ops).1 :=
  (sc_applyOps ops (m, d) h).1

/-! ## Search shape (C5) -/

theorem mapOpt_some {α β : Type} (f : α → Option β) :
    ∀ ks : List α, (∀ a ∈ ks, (f a).isSome) →
      ∃ vs, mapOpt f ks = some vs ∧ vs.length = ks.length := by
  intro ks
  induction ks with
  | nil => intro _; exact ⟨[], rfl, rfl⟩
  | cons a t ih =>
    intro h
    obtain ⟨b, hb⟩ := Option.isSome_iff_exists.mp (h a (by simp))
    obtain ⟨vs, hvs, hlen⟩ := ih (fun x hx => h x (by simp [hx]))
    refine ⟨b :: vs, ?_, by simp [hlen]⟩
    simp [mapOpt, hb, hvs]

theorem lookup_isSome_of_mem_keys {β : Type} (l : List (ℕ × β)) (a : ℕ)
    (h : a ∈ l.map Prod.fst) : (l.lookup a).isSome := by
  induction l with
  | nil => simp at h
  | cons p t ih =>
    obtain ⟨x, b⟩ := p
    by_cases hx : a = x
    · simp [List.lookup_cons, hx]
    · have hk : (a == x) = false := by simp [hx]
      simp only [List.map_cons, List.mem_cons] at h
      rcases h with h | h
      · exact absurd h hx
      · simp only [List.lookup_cons, hk]
        exact ih h

theorem filter_replicate_neg (n : ℕ) :
    (List.replicate n (-1 : Int)).filter (fun i => i ≠ -1) = [] := by
  induction n with
  | zero => rfl
  | succ n ih => simp [List.replicate_succ, ih]

/-- C5 counterexample: on an index holding 3 entries, `search` with
`k = 10` returns an `ids` list of length 3 and a `vectors` list of length
3, but the distance row has length `k = 10` — faiss pads the missing
slots with `FLT_MAX` and the code returns the padded row unfiltered, so
the three returned components do *not* have equal length. -/
theorem claim_C5_counterexample :
    FaissIndex.search
      { FaissIndex.mk0 1 1 with
        n_entries := 3
        entries := [(0, [0]), (1, [1]), (2, [2])]
        id_map := [(0, "a"), (1, "b"), (2, "c")]
        next_id := 3 } [0] 10
      = some (([0, 1, 4] ++ List.replicate 7 fltMax : List ℚ),
          ["a", "b", "c"], [[0], [1], [2]]) := by
  norm_num [FaissIndex.search, faissSearch, FaissIndex.mk0, sqDist,
    List.insertionSort, List.orderedInsert, distLE, List.lookup,
    List.filter, mapOpt, Int.toNat, List.replicate]
  simp

/-- C5 (amended): on a well-formed nonempty index and `k ≥ 1`, `search`
does not raise, the `ids` and `vectors` components have equal length
`min k n` (`n` the number of stored entries), and the first `min k n`
entries of the distance row are the squared Euclidean distances in
ascending order; the distance row itself however always has length `k`,
its tail padded with faiss's `FLT_MAX` sentinel.  (On an *empty* index the
claim's "never raises" also fails: the brute-force fallback crashes in
`np.vstack([])`.) -/
theorem claim_C5 (idx : FaissIndex) (q : List ℚ) (k : ℕ)
    (hwf : idx.WF) (hne : idx.entries ≠ []) (hk : 1 ≤ k)
    (_hq : q.length = idx.total_dim) :
    ∃ ds ids vs, idx.search q k = some (ds, ids, vs) ∧
      ids.length = min k idx.entries.length ∧
      vs.length = min k idx.entries.length ∧
      ds.length = k ∧
      (ds.take (min k idx.entries.length)).Sorted (· ≤ ·) := by
  obtain ⟨hdim, hkeys, hidkeys, hnext, hvlen⟩ := hwf
  set n := idx.entries.length with hn
  set scored := idx.entries.map (fun e => (sqDist q e.2, (e.1 : Int)))
    with hscored
  set sorted := List.insertionSort distLE scored with hsorted
  set top := sorted.take k with htop
  have hslen : sorted.length = n := by
    rw [hsorted, (List.perm_insertionSort distLE scored).length_eq,
      hscored, List.length_map]
  have htoplen : top.length = min k n := by
    rw [htop, List.length_take, hslen]
  have hnpos : 0 < n := by
    rw [hn]
    exact List.length_pos.mpr hne
  have hminpos : 0 < min k n := lt_min hk hnpos
  -- every candidate in the top block comes from a stored entry
  have hmem : ∀ p ∈ top, ∃ e ∈ idx.entries,
      p = (sqDist q e.2, (e.1 : Int)) := by
    intro p hp
    have hps : p ∈ sorted := List.mem_of_mem_take hp
    have hpsc : p ∈ scored :=
      (List.perm_insertionSort distLE scored).subset hps
    obtain ⟨e, he, hpe⟩ := List.mem_map.mp hpsc
    exact ⟨e, he, hpe.symm⟩
  have hr : faissSearch idx.entries q k
      = (top.map (fun p => p.1) ++ List.replicate (k - top.length) fltMax,
         top.map (fun p => p.2) ++ List.replicate (k - top.length) (-1)) :=
    rfl
  -- the id column of the top block survives the `!= -1` filter intact
  have hfilter : ((top.map (fun p : ℚ × Int => p.2)
        ++ List.replicate (k - top.length) (-1)).filter
          (fun i => i ≠ -1))
      = top.map (fun p : ℚ × Int => p.2) := by
    rw [List.filter_append, filter_replicate_neg, List.append_nil]
    rw [List.filter_eq_self]
    intro x hx
    obtain ⟨p, hp, hpx⟩ := List.mem_map.mp hx
    obtain ⟨e, -, hpe⟩ := hmem p hp
    subst hpe
    simp only [← hpx]
    simp only [decide_eq_true_eq]
    omega
  -- id_map lookups succeed for every returned internal id
  have hids : ∀ i ∈ top.map (fun p : ℚ × Int => p.2),
      (idx.id_map.lookup i.toNat).isSome := by
    intro i hi
    obtain ⟨p, hp, hpx⟩ := List.mem_map.mp hi
    obtain ⟨e, he, hpe⟩ := hmem p hp
    subst hpe
    have : e.1 ∈ idx.id_map.map Prod.fst := by
      rw [hidkeys, ← hkeys]
      exact List.mem_map_of_mem Prod.fst he
    have h2 := lookup_isSome_of_mem_keys idx.id_map e.1 this
    simpa [← hpx] using h2
  have hvecs : ∀ i ∈ top.map (fun p : ℚ × Int => p.2),
      (idx.entries.lookup i.toNat).isSome := by
    intro i hi
    obtain ⟨p, hp, hpx⟩ := List.mem_map.mp hi
    obtain ⟨e, he, hpe⟩ := hmem p hp
    subst hpe
    have : e.1 ∈ idx.entries.map Prod.fst :=
      List.mem_map_of_mem Prod.fst he
    have h2 := lookup_isSome_of_mem_keys idx.entries e.1 this
    simpa [← hpx] using h2
  obtain ⟨sids, hsids, hsidlen⟩ :=
    mapOpt_some (fun i : Int => idx.id_map.lookup i.toNat) _ hids
  obtain ⟨vecs, hvecs2, hveclen⟩ :=
    mapOpt_some (fun i : Int => idx.entries.lookup i.toNat) _ hvecs
  have hsidlen' : sids.length = min k n := by
    rw [hsidlen, List.length_map, htoplen]
  have hsidne : ¬ (sids.length = 0) := by
    rw [hsidlen']
    omega
  refine ⟨top.map (fun p => p.1)
      ++ List.replicate (k - top.length) fltMax, sids, vecs, ?_, ?_, ?_, ?_, ?_⟩
  · unfold FaissIndex.search
    rw [hr]
    dsimp only
    rw [hfilter, hsids]
    dsimp only
    rw [if_neg hsidne, hvecs2]
  · exact hsidlen'
  · rw [hveclen, List.length_map, htoplen]
  · rw [List.length_append, List.length_map, List.length_replicate, htoplen]
    omega
  · have hst : List.Sorted distLE sorted :=
      List.sorted_insertionSort distLE scored
    have hsttop : top.Pairwise distLE :=
      List.Pairwise.sublist (List.take_sublist k sorted) hst
    have hmap : (top.map (fun p => p.1)).Sorted (· ≤ ·) :=
      (List.pairwise_map).mpr hsttop
    have htake : ((top.map (fun p => p.1)
        ++ List.replicate (k - top.length) fltMax).take (min k n))
        = top.map (fun p => p.1) := by
      apply List.take_left'
      rw [List.length_map, htoplen]
    rw [htake]
    exact hmap

/-- C5 witness: the amended theorem on a one-entry index with `k = 1`. -/
theorem claim_C5_witness :
    (FaissIndex.WF
      { FaissIndex.mk0 1 1 with
        n_entries := 1, entries := [(0, [0])],
        id_map := [(0, "a")], next_id := 1 }) ∧
    (∃ ds ids vs,
      FaissIndex.search
        { FaissIndex.mk0 1 1 with
          n_entries := 1, entries := [(0, [0])],
          id_map := [(0, "a")], next_id := 1 } [0] 1
        = some (ds, ids, vs) ∧
      ids.length = min 1 1 ∧ vs.length = min 1 1 ∧ ds.length = 1 ∧
      (ds.take (min 1 1)).Sorted (· ≤ ·)) := by
  have hwf : FaissIndex.WF
      { FaissIndex.mk0 1 1 with
        n_entries := 1, entries := [(0, [0])],
        id_map := [(0, "a")], next_id := 1 } := by
    refine ⟨rfl, rfl, rfl, rfl, ?_⟩
    intro p hp
    simp only [List.mem_singleton] at hp
    subst hp
    rfl
  refine ⟨hwf, ?_⟩
  have h := claim_C5 _ [0] 1 hwf (by simp) le_rfl rfl
  simpa using h

/-! ## Brute-force search (C2) -/

/-- C2: the brute-force fallback pairs its returned external IDs wrongly.
On the index storing `[1,0] ↦ "a"` and `[0,1] ↦ "b"`, the query `[0,1]`
with `k = 1` selects the top-similarity vector `[0,1]` (cosine similarity
1, returned distance `1 - 1 = 0`), but returns external ID `"a"`: the code
computes `string_ids = [id_map[i] for i in range(len(top_indices))]`,
indexing by *position* instead of by the selected `top_indices`.  The last
two conjuncts exhibit the divergence: internal id 1 — the selected
top-similarity entry — maps to `"b"` and stores the returned vector. -/
theorem claim_C2_bug :
    FaissIndex.brute_force_search
      { FaissIndex.mk0 2 1 with
        n_entries := 2
        entries := [(0, [1, 0]), (1, [0, 1])]
        id_map := [(0, "a"), (1, "b")]
        next_id := 2 } [0, 1] 1
      = some ([0], ["a"], [[0, 1]]) ∧
    List.lookup 1 [(0, "a"), (1, "b")] = some "b" ∧
    List.lookup 1 [(0, ([1, 0] : List ℚ)), (1, [0, 1])] = some [0, 1] := by
  refine ⟨?_, by decide, by decide⟩
  have hi : isqrtN 1 = 1 := by decide
  have h1 : ratSqrt (1 : ℚ) = some 1 := by
    simp [ratSqrt, hi]
  simp [FaissIndex.brute_force_search, FaissIndex.get_all_vectors,
    FaissIndex.argsortAsc, FaissIndex.mk0, mapOpt, dot, h1,
    List.insertionSort, List.orderedInsert, List.lookup_cons,
    List.enum, List.enumFrom, Option.bind, min_def]
  constructor
  · rw [show ([[(1 : ℚ), 0], [0, 1]] : List (List ℚ))[1] = [0, 1] from rfl]
    norm_num
  · decide

/-! ## delete_index on-disk artifacts (C6) -/

/-- C6: `delete_index` fails to delete the on-disk artifacts of an index
that was *loaded* rather than saved in the current session:
`last_save_path` is set only by `save`, never by `load`, so the file
removal in `FaissIndex.delete` is skipped.  Constructing a manager over a
disk that already holds `i.index` (one stored vector `[5] ↦ "a"`) and
calling `delete_index("i")` removes the index from memory and from the
re-persisted manager metadata, but `i.index` (with its sidecar) is still
on disk afterwards. -/
theorem claim_C6_bug :
    IndexManager.delete_index
      (mkIndexManager
        (Disk.mk (some [("i", MetaEntry.mk 1 1 1 false false)])
          [("i", SavedIndex.mk [(0, [5])] 1 1 1 [(0, "a")] 1 none none)])).1
      (Disk.mk (some [("i", MetaEntry.mk 1 1 1 false false)])
        [("i", SavedIndex.mk [(0, [5])] 1 1 1 [(0, "a")] 1 none none)])
      "i"
      = ((IndexManager.mk [] [],
          Disk.mk (some [])
            [("i", SavedIndex.mk [(0, [5])] 1 1 1 [(0, "a")] 1 none none)]),
         none) := by
  rfl

/-! ## Save/load round trip (C1): helper lemmas -/

theorem sqDist_self (q : List ℚ) : sqDist q q = 0 := by
  induction q with
  | nil => rfl
  | cons a t ih =>
    simp only [sqDist, List.zipWith_cons_cons, List.sum_cons] at ih ⊢
    simp [ih]

theorem sqDist_nonneg (u : List ℚ) : ∀ v : List ℚ, 0 ≤ sqDist u v := by
  induction u with
  | nil => intro v; simp [sqDist]
  | cons a t ih =>
    intro v
    cases v with
    | nil => simp [sqDist]
    | cons b s =>
      simp only [sqDist, List.zipWith_cons_cons, List.sum_cons]
      have h := ih s
      simp only [sqDist] at h
      have := sq_nonneg (a - b)
      linarith

theorem sqDist_pos (u : List ℚ) : ∀ v : List ℚ, u.length = v.length →
    u ≠ v → 0 < sqDist u v := by
  induction u with
  | nil =>
    intro v hl hne
    cases v with
    | nil => exact absurd rfl hne
    | cons b s => simp at hl
  | cons a t ih =>
    intro v hl hne
    cases v with
    | nil => simp at hl
    | cons b s =>
      simp only [sqDist, List.zipWith_cons_cons, List.sum_cons]
      by_cases hab : a = b
      · subst hab
        have hts : t ≠ s := by
          intro h
          exact hne (by rw [h])
        have h := ih s (by simpa using hl) hts
        simp only [sqDist] at h
        have := sq_nonneg (a - a)
        linarith
      · have h0 : a - b ≠ 0 := sub_ne_zero.mpr hab
        have h1 : 0 < (a - b) ^ 2 := pow_two_pos_of_ne_zero h0
        have h2 := sqDist_nonneg t s
        simp only [sqDist] at h2
        linarith

theorem sort_head_zero (A : List (ℚ × Int)) (e : ℚ × Int)
    (hA : ∀ x ∈ A, 0 < x.1) (he : e.1 = 0) :
    ∃ t, List.insertionSort distLE (A ++ [e]) = e :: t := by
  have hperm := List.perm_insertionSort distLE (A ++ [e])
  have hmem : e ∈ List.insertionSort distLE (A ++ [e]) :=
    hperm.mem_iff.mpr (by simp)
  have hsorted := List.sorted_insertionSort distLE (A ++ [e])
  cases hs : List.insertionSort distLE (A ++ [e]) with
  | nil => rw [hs] at hmem; simp at hmem
  | cons h t =>
    rw [hs] at hmem hperm hsorted
    have hhmem : h ∈ A ++ [e] := hperm.subset (by simp)
    rcases List.mem_append.mp hhmem with hA2 | hsing
    · have hpos := hA h hA2
      rcases List.mem_cons.mp hmem with heq | het
      · exact ⟨t, by rw [heq]⟩
      · exfalso
        have hle : distLE h e := (List.sorted_cons.mp hsorted).1 e het
        unfold distLE at hle
        rw [he] at hle
        linarith
    · simp only [List.mem_singleton] at hsing
      subst hsing
      exact ⟨t, rfl⟩

theorem lookup_eq_none_not_mem {κ β : Type} [BEq κ] [LawfulBEq κ]
    (l : List (κ × β)) (a : κ) (h : a ∉ l.map Prod.fst) :
    l.lookup a = none := by
  induction l with
  | nil => rfl
  | cons p t ih =>
    obtain ⟨x, b⟩ := p
    simp only [List.map_cons, List.mem_cons, not_or] at h
    have hk : (a == x) = false := beq_eq_false_iff_ne.mpr h.1
    simp only [List.lookup_cons, hk]
    exact ih h.2

theorem lookup_append_last {κ β : Type} [BEq κ] [LawfulBEq κ]
    (l : List (κ × β)) (k : κ) (v : β) (h : k ∉ l.map Prod.fst) :
    (l ++ [(k, v)]).lookup k = some v := by
  induction l with
  | nil => simp [List.lookup_cons]
  | cons p t ih =>
    obtain ⟨x, b⟩ := p
    simp only [List.map_cons, List.mem_cons, not_or] at h
    have hk : (k == x) = false := beq_eq_false_iff_ne.mpr h.1
    simp only [List.cons_append, List.lookup_cons, hk]
    exact ih h.2

theorem linspace_length (n : ℕ) : (linspace n).length = n := by
  match n with
  | 0 => rfl
  | 1 => rfl
  | (n + 2) =>
    have h : linspace (n + 2) = (List.range (n + 2)).map
        (fun i : ℕ => (i : ℚ) / ((((n + 2 : ℕ)) : ℚ) - 1)) := rfl
    rw [h, List.length_map, List.length_range]

theorem rowNormalize_length (mu sd row : List ℚ) :
    (rowNormalize mu sd row).length
      = min (min row.length mu.length) sd.length := by
  simp [rowNormalize]

theorem normalize_shape (idx : FaissIndex) (hN : idx.NormWF)
    (Mm : List (List ℚ))
    (hrows : ∀ row ∈ Mm, row.length = idx.feature_dim) :
    (idx.normalize_matrix Mm).length = Mm.length ∧
    ∀ row ∈ idx.normalize_matrix Mm, row.length = idx.feature_dim := by
  rcases hN with ⟨hm, hs⟩ | ⟨mu, sd, hm, hs, hlm, hls⟩
  · have hid : idx.normalize_matrix Mm = Mm := by
      simp [FaissIndex.normalize_matrix, hm, hs]
    rw [hid]
    exact ⟨rfl, hrows⟩
  · have hmap : idx.normalize_matrix Mm = Mm.map (rowNormalize mu sd) := by
      simp [FaissIndex.normalize_matrix, hm, hs]
    rw [hmap]
    constructor
    · simp
    · intro row hr
      obtain ⟨r0, hr0, hr0e⟩ := List.mem_map.mp hr
      rw [← hr0e, rowNormalize_length, hrows r0 hr0, hlm, hls]
      simp

theorem flatten_length_const {α : Type} (L : List (List α)) (c : ℕ)
    (h : ∀ r ∈ L, r.length = c) : L.flatten.length = L.length * c := by
  induction L with
  | nil => simp
  | cons r t ih =>
    simp only [List.flatten_cons, List.length_append, List.length_cons]
    rw [h r (by simp), ih (fun x hx => h x (by simp [hx]))]
    ring

theorem interpolate_shape (M : List (List ℚ)) (ts fd : ℕ)
    (hrows : ∀ row ∈ M, row.length = fd) (hne : M ≠ [])
    (hok : M.length = ts ∨ 2 ≤ M.length) :
    ∃ interp, interpolate_matrix M ts = some interp ∧
      interp.length = ts ∧ ∀ row ∈ interp, row.length = fd := by
  by_cases heq : M.length = ts
  · exact ⟨M, by simp [interpolate_matrix, heq], heq, hrows⟩
  · have h2 : 2 ≤ M.length := by
      rcases hok with h | h
      · exact absurd h heq
      · exact h
    have hhead : (M.headD []).length = fd := by
      rcases M with _ | ⟨r, rs⟩
      · exact absurd rfl hne
      · exact hrows r (by simp)
    refine ⟨(linspace ts).map (fun t =>
        (List.range (M.headD []).length).map
          (fun f => interp1dLinear (linspace M.length) (column M f) t)),
      ?_, ?_, ?_⟩
    · simp only [interpolate_matrix, if_neg heq,
        if_neg (show ¬ M.length < 2 by omega)]
    · simp [linspace_length]
    · intro row hr
      obtain ⟨t, ht, hte⟩ := List.mem_map.mp hr
      rw [← hte, List.length_map, List.length_range]
      exact hhead

theorem wf_add_vector (idx : FaissIndex) (hwf : idx.WF) (v : List ℚ)
    (hv : v.length = idx.total_dim) (eid : String) :
    (idx.add_vector v eid).WF := by
  obtain ⟨h1, h2, h3, h4, h5⟩ := hwf
  refine ⟨h1, ?_, ?_, ?_, ?_⟩
  · simp only [FaissIndex.add_vector, List.map_append, List.map_cons,
      List.map_nil, List.length_append, List.length_cons, List.length_nil]
    rw [h2, h4, ← List.range_succ]
  · simp only [FaissIndex.add_vector, List.map_append, List.map_cons,
      List.map_nil, List.length_append, List.length_cons, List.length_nil]
    rw [h3, h4, ← List.range_succ]
  · simp only [FaissIndex.add_vector, List.length_append, List.length_cons,
      List.length_nil]
    omega
  · intro p hp
    simp only [FaissIndex.add_vector, List.mem_append,
      List.mem_singleton] at hp
    rcases hp with hp | hp
    · exact h5 p hp
    · subst hp
      exact hv

theorem load_save_roundtrip (idx : FaissIndex) (a b : ℕ) (p : String)
    (htd : idx.total_dim = idx.feature_dim * idx.time_steps)
    (hpair : idx.norm_means = none → idx.norm_stds = none) :
    (FaissIndex.mk0 a b).load ((idx.save p).2)
      = { idx with last_save_path := none } := by
  cases hm : idx.norm_means with
  | none =>
    have hs := hpair hm
    simp [FaissIndex.load, FaissIndex.save, FaissIndex.mk0, hm, hs, htd]
  | some mu =>
    simp [FaissIndex.load, FaissIndex.save, FaissIndex.mk0, hm, htd]

theorem search_exact_hit (idx idx2 : FaissIndex) (q : List ℚ) (eid : String)
    (hwf : idx.WF) (hq : q.length = idx.total_dim)
    (hnd : ∀ p ∈ idx.entries, p.2 ≠ q)
    (he : idx2.entries = idx.entries ++ [(idx.next_id, q)])
    (hi : idx2.id_map = idx.id_map ++ [(idx.next_id, eid)]) :
    idx2.search q 1 = some ([0], [eid], [q]) := by
  obtain ⟨htd, hkeys, hikeys, hnext, hvlen⟩ := hwf
  have hscored : idx2.entries.map (fun e => (sqDist q e.2, (e.1 : Int)))
      = idx.entries.map (fun e => (sqDist q e.2, (e.1 : Int)))
        ++ [((0 : ℚ), (idx.next_id : Int))] := by
    rw [he, List.map_append]
    simp [sqDist_self]
  have hA : ∀ x ∈ idx.entries.map (fun e => (sqDist q e.2, (e.1 : Int))),
      0 < x.1 := by
    intro x hx
    obtain ⟨e, hee, hxe⟩ := List.mem_map.mp hx
    rw [← hxe]
    exact sqDist_pos q e.2 (by rw [hq, hvlen e hee])
      (fun hqe => hnd e hee hqe.symm)
  obtain ⟨t, ht⟩ := sort_head_zero _ ((0 : ℚ), (idx.next_id : Int)) hA rfl
  have hfs : faissSearch idx2.entries q 1
      = ([0], [(idx.next_id : Int)]) := by
    unfold faissSearch
    rw [hscored]
    dsimp only
    rw [ht]
    simp
  unfold FaissIndex.search
  rw [hfs]
  dsimp only
  have hfilter : ([(idx.next_id : Int)].filter (fun i => i ≠ -1))
      = [(idx.next_id : Int)] := by
    simp only [List.filter_cons, List.filter_nil]
    have : ((idx.next_id : Int) ≠ -1) := by omega
    simp [this]
  rw [hfilter]
  have hidlook : idx2.id_map.lookup idx.next_id = some eid := by
    rw [hi]
    apply lookup_append_last
    rw [hikeys, hnext]
    simp
  have hentlook : idx2.entries.lookup idx.next_id = some q := by
    rw [he]
    apply lookup_append_last
    rw [hkeys, hnext]
    simp
  simp [mapOpt, Int.toNat_natCast, hidlook, hentlook]

/-- C1 counterexample: the claim quantifies over *every* index state, but
with a duplicate stored vector the top-1 id after the round trip is not
the id just added.  Here `[[0],[1]]` is stored under `"a"` and then again
under `"b"`; after `save()` and a fresh `load()`, `search_matrix` with
that same matrix and `k = 1` returns distance 0 but id `"a"` — faiss's
heap replaces a candidate only on strictly smaller distance, so the
earliest entry wins ties (the model's stable sort reproduces this). -/
theorem claim_C1_counterexample :
    (mkIndexManager
        ((((((IndexManager.mk [] []).add_matrix "i" [[0], [1]] "a").1.add_matrix
            "i" [[0], [1]] "b").1).save (Disk.mk none [])).2)).1.search_matrix
      "i" [[0], [1]] 1
      = some ([0], ["a"], [[[0], [1]]]) := by
  have hm4 : (mkIndexManager
        ((((((IndexManager.mk [] []).add_matrix "i" [[0], [1]] "a").1.add_matrix
            "i" [[0], [1]] "b").1).save (Disk.mk none [])).2)).1
      = IndexManager.mk
          [("i", FaissIndex.mk 1 2 2 2 none none
            [(0, [0, 1]), (1, [0, 1])] [(0, "a"), (1, "b")] 2 none)]
          [("i", MetaEntry.mk 2 1 2 false false)] := by
    rfl
  rw [hm4]
  norm_num [IndexManager.search_matrix, FaissIndex.search, faissSearch,
    FaissIndex.normalize_matrix, FaissIndex.denormalize_matrix,
    interpolate_matrix, sqDist, distLE, List.insertionSort,
    List.orderedInsert, List.lookup, mapOpt, Int.toNat, unflatten,
    Option.bind]

/-- C1 (amended): for every well-formed state of the named index, after
`add_matrix(name, M, id)` succeeds, `save()`, and a fresh `load()` over
the written base directory: (no call raises;) the reloaded index is equal
to the saved one in every queryable field — entries, id map, dimensions,
counters, normalization — differing only in the untracked
`last_save_path`; and `search_matrix(name, M, k=1)` returns distance
exactly 0 with `id` as the top result *provided* no previously stored
entry holds the same processed vector (with a pre-existing duplicate the
earlier entry's id is returned instead — see the counterexample). -/
theorem claim_C1 (name : String) (idx : FaissIndex)
    (md : List (String × MetaEntry)) (me : MetaEntry) (eid : String)
    (M : List (List ℚ))
    (hmd : md.lookup name = some me)
    (hwf : idx.WF) (hnw : idx.NormWF)
    (hrows : ∀ row ∈ M, row.length = idx.feature_dim)
    (hMne : M ≠ [])
    (hMok : M.length = idx.time_steps ∨ 2 ≤ M.length)
    (hnd : ∀ p ∈ idx.entries, ∀ interp,
      interpolate_matrix M idx.time_steps = some interp →
      p.2 ≠ (idx.normalize_matrix interp).flatten) :
    ∃ interp, interpolate_matrix M idx.time_steps = some interp ∧
      (let m := IndexManager.mk [(name, idx)] md
       let q := (idx.normalize_matrix interp).flatten
       let r1 := m.add_matrix name M eid
       let d := (r1.1.save (Disk.mk none [])).2
       let r2 := mkIndexManager d
       r1.2 = none ∧ r2.2 = none ∧
       r2.1.indices.lookup name
         = some { idx.add_vector q eid with last_save_path := none } ∧
       ∃ vecs, r2.1.search_matrix name M 1 = some ([0], [eid], vecs)) := by
  obtain ⟨interp, hint, hilen, hirows⟩ :=
    interpolate_shape M idx.time_steps idx.feature_dim hrows hMne hMok
  refine ⟨interp, hint, ?_⟩
  obtain ⟨hnl, hnr⟩ := normalize_shape idx hnw interp hirows
  have hqlen : ((idx.normalize_matrix interp).flatten).length
      = idx.total_dim := by
    rw [flatten_length_const _ idx.feature_dim hnr, hnl, hilen,
      hwf.1, Nat.mul_comm]
  have hwf2 : (idx.add_vector ((idx.normalize_matrix interp).flatten)
      eid).WF := wf_add_vector idx hwf _ hqlen eid
  have hlook2 : List.lookup name [(name, idx)] = some idx := by
    simp [List.lookup_cons]
  have hset2 : dictSet [(name, idx)] name
      (idx.add_vector ((idx.normalize_matrix interp).flatten) eid)
      = [(name, idx.add_vector ((idx.normalize_matrix interp).flatten)
          eid)] := by
    simp [dictSet, List.lookup_cons]
  -- step 1: add_matrix succeeds and appends the processed vector
  have hadd : (IndexManager.mk [(name, idx)] md).add_matrix name M eid
      = (IndexManager.mk
          [(name, idx.add_vector ((idx.normalize_matrix interp).flatten)
            eid)]
          (dictSet md name { me with n_entries := me.n_entries + 1 }),
        none) := by
    unfold IndexManager.add_matrix
    try dsimp only
    simp only [hlook2, Option.isSome_some, if_true, hint]
    unfold IndexManager.add_vector
    try dsimp only
    simp only [hlook2, Option.isSome_some, if_true]
    unfold IndexManager.add_vector_existing
    try dsimp only
    simp only [hlook2]
    rw [if_neg (show ¬ (((idx.normalize_matrix interp).flatten).length
        ≠ idx.total_dim) from fun h => h hqlen)]
    try dsimp only
    simp only [hset2, hmd]
  -- step 2: save writes the index artifact and the manager metadata
  have hsave : ((IndexManager.mk
        [(name, idx.add_vector ((idx.normalize_matrix interp).flatten)
          eid)]
        (dictSet md name { me with n_entries := me.n_entries + 1 })).save
          (Disk.mk none [])).2
      = Disk.mk
          (some (dictSet md name { me with n_entries := me.n_entries + 1 }))
          [(name, ((idx.add_vector ((idx.normalize_matrix interp).flatten)
            eid).save name).2)] := by
    simp [IndexManager.save, dictSet]
  -- step 3: the index reloads bit-identically except `last_save_path`
  have hround : ∀ a b : ℕ, (FaissIndex.mk0 a b).load
        ((idx.add_vector ((idx.normalize_matrix interp).flatten)
          eid).save name).2
      = { idx.add_vector ((idx.normalize_matrix interp).flatten) eid
          with last_save_path := none } := by
    intro a b
    apply load_save_roundtrip
    · exact hwf2.1
    · intro hmn
      simp only [FaissIndex.add_vector] at hmn ⊢
      rcases hnw with ⟨h1, h2⟩ | ⟨mu, sd, h1, h2, -, -⟩
      · exact h2
      · rw [h1] at hmn
        simp at hmn
  have hload : ∃ mdF, mkIndexManager
        (Disk.mk
          (some (dictSet md name { me with n_entries := me.n_entries + 1 }))
          [(name, ((idx.add_vector ((idx.normalize_matrix interp).flatten)
            eid).save name).2)])
      = (IndexManager.mk
          [(name, { idx.add_vector ((idx.normalize_matrix interp).flatten)
            eid with last_save_path := none })] mdF, none) := by
    unfold mkIndexManager IndexManager.load
    try dsimp only
    unfold IndexManager.loadLoop
    try dsimp only
    simp only [lookup_dictSet_self]
    rw [init_index_absent (IndexManager.mk []
        (dictSet md name { me with n_entries := me.n_entries + 1 })) name
        ({ me with n_entries := me.n_entries + 1 } : MetaEntry).feature_dim
        ({ me with n_entries := me.n_entries + 1 } : MetaEntry).time_steps
        rfl]
    try dsimp only
    unfold IndexManager.loadLoop
    unfold IndexManager.load_index
    try dsimp only
    unfold IndexManager.update_metadata
    try dsimp only
    have hds : dictSet ([] : List (String × FaissIndex)) name
        (FaissIndex.mk0 me.feature_dim me.time_steps)
        = [(name, FaissIndex.mk0 me.feature_dim me.time_steps)] := by
      simp [dictSet]
    simp only [hds, List.lookup_cons, beq_self_eq_true, lookup_dictSet_self,
      Option.getD_some]
    try dsimp only
    rw [hround]
    have hseti : dictSet [(name, FaissIndex.mk0 me.feature_dim
        me.time_steps)] name
        ({ idx.add_vector ((idx.normalize_matrix interp).flatten) eid
          with last_save_path := none })
        = [(name, { idx.add_vector
            ((idx.normalize_matrix interp).flatten) eid
            with last_save_path := none })] := by
      simp [dictSet, List.lookup_cons]
    simp only [hseti, lookup_dictSet_self]
    try dsimp only
    exact ⟨_, rfl⟩
  obtain ⟨mdF, hload⟩ := hload
  try dsimp only
  rw [hadd]
  try dsimp only
  rw [hsave, hload]
  try dsimp only
  refine ⟨rfl, rfl, ?_, ?_⟩
  · simp [List.lookup_cons]
  · -- evaluate search_matrix on the reloaded single-index manager
    have hlookL : List.lookup name [(name,
        ({ idx.add_vector ((idx.normalize_matrix interp).flatten) eid
          with last_save_path := none } : FaissIndex))]
        = some ({ idx.add_vector ((idx.normalize_matrix interp).flatten)
          eid with last_save_path := none } : FaissIndex) := by
      simp [List.lookup_cons]
    unfold IndexManager.search_matrix
    rw [hlookL]
    generalize hidxL : ({ idx.add_vector
        ((idx.normalize_matrix interp).flatten) eid
        with last_save_path := none } : FaissIndex) = idxL
    have hts : idxL.time_steps = idx.time_steps := by
      rw [← hidxL]
      simp [FaissIndex.add_vector]
    have hnm : idxL.normalize_matrix interp = idx.normalize_matrix interp := by
      rw [← hidxL]
      unfold FaissIndex.normalize_matrix
      rfl
    have hhit : idxL.search ((idx.normalize_matrix interp).flatten) 1
        = some ([0], [eid], [(idx.normalize_matrix interp).flatten]) := by
      rw [← hidxL]
      apply search_exact_hit idx _ _ eid hwf hqlen
        (fun p hp => hnd p hp interp hint)
      · simp [FaissIndex.add_vector]
      · simp [FaissIndex.add_vector]
    simp only [Option.bind_eq_bind, Option.some_bind]
    rw [hts, hint]
    simp only [Option.some_bind]
    rw [hnm, hhit]
    simp only [Option.some_bind]
    exact ⟨_, rfl⟩

/-- C1 witness: the amended theorem on a fresh empty `1 × 1` index, the
matrix `[[3]]` and id `"a"`. -/
theorem claim_C1_witness :
    ∃ interp, interpolate_matrix [[(3 : ℚ)]] (FaissIndex.mk0 1 1).time_steps
        = some interp ∧
      (let m := IndexManager.mk [("i", FaissIndex.mk0 1 1)]
        [("i", MetaEntry.fresh)]
       let q := ((FaissIndex.mk0 1 1).normalize_matrix interp).flatten
       let r1 := m.add_matrix "i" [[(3 : ℚ)]] "a"
       let d := (r1.1.save (Disk.mk none [])).2
       let r2 := mkIndexManager d
       r1.2 = none ∧ r2.2 = none ∧
       r2.1.indices.lookup "i"
         = some { (FaissIndex.mk0 1 1).add_vector q "a"
                  with last_save_path := none } ∧
       ∃ vecs, r2.1.search_matrix "i" [[(3 : ℚ)]] 1
          = some ([0], ["a"], vecs)) := by
  apply claim_C1 "i" (FaissIndex.mk0 1 1) [("i", MetaEntry.fresh)]
    MetaEntry.fresh "a" [[(3 : ℚ)]]
  · simp [List.lookup_cons]
  · exact ⟨rfl, rfl, rfl, rfl, by intro p hp; simp [FaissIndex.mk0] at hp⟩
  · left
    exact ⟨rfl, rfl⟩
  · intro row hr
    simp only [List.mem_singleton] at hr
    subst hr
    rfl
  · simp
  · left
    rfl
  · intro p hp
    simp [FaissIndex.mk0] at hp

/-- C4 witness: the empty manager run through a concrete operation
sequence (a lazy `add_matrix` init, an `add_vector`, a failing re-init and
a delete). -/
theorem claim_C4_witness :
    StrongConsistent (IndexManager.mk [] []) ∧
    Consistent (applyOps (IndexManager.mk [] [], Disk.mk none [])
      [Op.addMat "i" [[1], [2]] "a", Op.addVec "i" [5, 6] "b",
       Op.initIdx "i" 3 3 none none, Op.delIdx "i"]).1 := by
  have hsc : StrongConsistent (IndexManager.mk [] []) := by
    constructor
    · intro name idx hl
      simp [List.lookup] at hl
    · intro name hname
      simp [List.lookup] at hname
  exact ⟨hsc, claim_C4 _ _ _ hsc⟩

end Ares
